import Mathlib

/-!
# The dependency-graph task engine of `dag/dag.go`

A shallow embedding of `dagEngine` (`NewEngine`, `ready`, `setState`, `setError`, `Run`).

* Go maps are `GoMap`: the entries in one iteration order, no key twice.  Where the source
  ranges over a map, the order is a choice of the schedule.
* `Run` starts one goroutine per dispatch and shares the engine, the artifact map, the
  semaphore channel `sem` and the wait group `wg` with them.  It is embedded as a step
  function `runStep` on `RunState`: one step is one access to shared state by the scheduler
  loop or by one goroutine.  A schedule (`List Action`) fixes the interleaving, the order of
  every map iteration and what `backoff.Retry` returns for every dispatched task.
* `dagEngine.Run e rootCtxArtifacts workers schedule` replays a schedule and gives the state
  reached and the log of events, most recent first.
-/

namespace Dag

/-! ## Go maps -/

/-- Go map with `string` keys: its entries in one iteration order, every key once. -/
structure GoMap (V : Type) where
  entries : List (String × V)
  nodupKeys : (entries.map Prod.fst).Nodup

namespace GoMap

variable {V : Type}

/-- Result of `make(map[string]V)`. -/
def empty : GoMap V := ⟨[], List.nodup_nil⟩

/-- Keys of the map, in iteration order. -/
def keys (m : GoMap V) : List String := m.entries.map Prod.fst

/-- Lookup `v, ok := m[k]`. -/
def get? (m : GoMap V) (k : String) : Option V :=
  (m.entries.find? (fun p => p.1 = k)).map Prod.snd

/-- Lookup `m[k]`: the zero value of `V` when `k` is not a key. -/
def index (m : GoMap V) (k : String) (zero : V) : V := (m.get? k).getD zero

/-- Assignment `m[k] = v`: the old entry of `k`, if any, is replaced. -/
def set (m : GoMap V) (k : String) (v : V) : GoMap V where
  entries := m.entries.filter (fun p => p.1 ≠ k) ++ [(k, v)]
  nodupKeys := by
    rw [List.map_append, List.nodup_append]
    refine ⟨(m.nodupKeys.sublist ((List.filter_sublist _).map _)), by simp, ?_⟩
    intro a ha hb
    simp only [List.map_cons, List.map_nil, List.mem_singleton] at hb
    subst hb
    simp [List.mem_map, List.mem_filter] at ha

instance instDecidableEqGoMap [DecidableEq V] : DecidableEq (GoMap V) := fun a b =>
  decidable_of_iff (a.entries = b.entries) (by
    cases a; cases b; simp)

end GoMap

/-! ## `dag/types.go` and the engine record -/

/-- The `nodeState` constants of `dag.go`; `pending` is the zero value. -/
inductive nodeState
  | pending
  | running
  | success
  | failed
deriving DecidableEq, Repr

/-- What the engine reads of a `Task`: the values its methods return.  `Run` of a task is
not a field: what it returns is chosen by the schedule. -/
structure Task where
  ID : String
  Deps : List String
  MaxRetries : Nat
  Timeout : Nat
  Cacheable : Bool
deriving DecidableEq, Repr

/-- Go `error` value: `none` is `nil`. -/
abbrev GoError := Option String

/-- Type `Artifacts map[string]string`. -/
abbrev Artifacts := GoMap String

/-- Fields `nodes`, `edges`, `state`, `errs` of `dagEngine` (`mu` and `wg` are in
`RunState`: every step is atomic, `wg` is a counter). -/
structure dagEngine where
  nodes : GoMap Task
  edges : GoMap (List String)
  state : GoMap nodeState
  errs : GoMap GoError
deriving DecidableEq

/-- Body of the loop of `NewEngine` for one task. -/
def register (e : dagEngine) (t : Task) : dagEngine :=
  { e with
    nodes := e.nodes.set t.ID t
    edges := e.edges.set t.ID t.Deps
    state := e.state.set t.ID nodeState.pending }

/-- `NewEngine`: four fresh maps, then every task of the list is registered in order. -/
def NewEngine (tasks : List Task) : dagEngine :=
  tasks.foldl register ⟨GoMap.empty, GoMap.empty, GoMap.empty, GoMap.empty⟩

/-- Inner loop of `ready`: `ok` stays true iff `e.state[d] == success` for every `d`. -/
def depsSucceeded (e : dagEngine) (deps : List String) : Bool :=
  deps.all (fun d => e.state.index d nodeState.pending = nodeState.success)

/-- `ready`, iterating over `e.state` in the order of its entries. -/
def dagEngine.ready (e : dagEngine) : List String :=
  (e.state.entries.filter (fun p =>
    p.2 = nodeState.pending && depsSucceeded e (e.edges.index p.1 []))).map Prod.fst

/-- `setState`. -/
def dagEngine.setState (e : dagEngine) (id : String) (s : nodeState) : dagEngine :=
  { e with state := e.state.set id s }

/-- `setError`. -/
def dagEngine.setError (e : dagEngine) (id : String) (err : GoError) : dagEngine :=
  { e with errs := e.errs.set id err }

/-! ## The body of `Run` -/

/-- Lines 62-67: `in` is a fresh map that receives every entry of `artifacts`
(ranging over a nil map does nothing). -/
def snapshot (artifacts : Option Artifacts) : Artifacts :=
  match artifacts with
  | none => GoMap.empty
  | some m => m.entries.foldl (fun acc p => acc.set p.1 p.2) GoMap.empty

/-- Lines 90-92: `artifacts[k] = v` for the entries of `out` in turn.  `artifacts` is
`none` for a nil map, and assigning into a nil map panics: the result is then `none`. -/
def assignAll : Option Artifacts → List (String × String) → Option (Option Artifacts)
  | a, [] => some a
  | none, _ :: _ => none
  | some m, (k, v) :: rest => assignAll (some (m.set k v)) rest

/-- Lines 88-94: nothing is done for a nil `out`. -/
def persist (artifacts : Option Artifacts) (out : Option Artifacts) :
    Option (Option Artifacts) :=
  match out with
  | none => some artifacts
  | some o => assignAll artifacts o.entries

/-- Lines 103-108: the first non-nil error met when ranging over `e.errs` in the given
order, `nil` when there is none. -/
def firstError : List (String × GoError) → GoError
  | [] => none
  | (_, err) :: rest => if err ≠ none then err else firstError rest

/-- Where the scheduler loop of `Run` stands. -/
inductive MainPc
  /-- About to call `e.ready()` (line 47). -/
  | loopTop
  /-- In `for _, id := range executable` with these ids left (line 52). -/
  | dispatching (executable : List String)
  /-- At `e.wg.Wait()` (line 101). -/
  | waiting
  /-- Returned this error. -/
  | returned (err : GoError)
deriving DecidableEq

/-- Where one goroutine started by `Run` stands. -/
inductive GPc
  /-- Started, before `e.setState(id, running)` (line 59). -/
  | spawned
  /-- Before copying `artifacts` into `in` (line 63). -/
  | copying
  /-- In `backoff.Retry` with this input (line 81). -/
  | retrying (inp : Artifacts)
  /-- After `e.setError`, before `e.setState(id, failed)` (line 83). -/
  | erred
  /-- After the merge of `out`, before `e.setState(id, success)` (line 96). -/
  | persisted
  /-- In the deferred function, before `<-sem` (line 56). -/
  | deferred
  /-- After `<-sem`, before `e.wg.Done()`. -/
  | released
  /-- Finished. -/
  | done
deriving DecidableEq

/-- What `backoff.Retry(operation, ...)` gave: a non-nil error, or nil with the `out` of
the last attempt. -/
inductive RetryResult
  | failed (err : String)
  | succeeded (out : Option Artifacts)
deriving DecidableEq

/-- State of one call of `Run`: the engine, the shared artifact map (`none` when nil), the
number of values in the channel `sem`, the counter of `wg`, the scheduler loop, the
goroutines in the order they were started, and whether a goroutine panicked. -/
structure RunState where
  e : dagEngine
  artifacts : Option Artifacts
  sem : Nat
  wg : Nat
  main : MainPc
  gs : List (String × GPc)
  panicked : Bool
deriving DecidableEq

/-- One choice of the schedule. -/
inductive Action
  /-- The loop calls `e.ready()`; the map iteration gives the ids in this order. -/
  | ready (order : List String)
  /-- The loop sends on `sem`, adds one to `wg` and starts the goroutine of the next id. -/
  | dispatch
  /-- Goroutine `i` does its next step other than `backoff.Retry`. -/
  | go (i : Nat)
  /-- The call `backoff.Retry` of goroutine `i` returns `result`; the goroutine records the
  error, or merges `out`. -/
  | retry (i : Nat) (result : RetryResult)
  /-- The call `e.wg.Wait()` returns and the loop over `e.errs`, in this order, gives the
  result of `Run`. -/
  | wait (order : List (String × GoError))
deriving DecidableEq

/-- What one step did. -/
inductive Event
  | readied (executable : List String)
  | dispatched (id : String)
  | stateSet (id : String) (s : nodeState)
  | copied (id : String)
  | retried (id : String) (result : RetryResult)
  | semReleased (id : String)
  | wgDone (id : String)
  | returned (err : GoError)
deriving DecidableEq

/-- Loop position after the `range` over `executable` has these ids left. -/
def afterDispatch (rest : List String) : MainPc :=
  if rest = [] then MainPc.loopTop else MainPc.dispatching rest

/-- Steps of the scheduler loop (lines 46-54 and 101-108).  `workers` is the capacity of
`sem`: the send blocks while `sem` is full. -/
def mainStep (workers : Nat) (s : RunState) : Action → Option (RunState × Event)
  | Action.ready order =>
    match s.main with
    | MainPc.loopTop =>
      if order.Perm s.e.ready then
        some ({ s with main := if order = [] then MainPc.waiting else MainPc.dispatching order },
          Event.readied order)
      else none
    | _ => none
  | Action.dispatch =>
    match s.main with
    | MainPc.dispatching (id :: rest) =>
      if s.sem < workers then
        some ({ s with
                sem := s.sem + 1
                wg := s.wg + 1
                gs := s.gs ++ [(id, GPc.spawned)]
                main := afterDispatch rest }, Event.dispatched id)
      else none
    | _ => none
  | Action.wait order =>
    match s.main with
    | MainPc.waiting =>
      if s.wg = 0 ∧ order.Perm s.e.errs.entries then
        some ({ s with main := MainPc.returned (firstError order) },
          Event.returned (firstError order))
      else none
    | _ => none
  | _ => none

/-- Steps of goroutine `i` with task id `id` at `pc` (lines 55-97). -/
def goStep (s : RunState) (i : Nat) (id : String) : GPc → Option (RunState × Event)
  | GPc.spawned =>
    some ({ s with e := s.e.setState id nodeState.running, gs := s.gs.set i (id, GPc.copying) },
      Event.stateSet id nodeState.running)
  | GPc.copying =>
    some ({ s with gs := s.gs.set i (id, GPc.retrying (snapshot s.artifacts)) }, Event.copied id)
  | GPc.erred =>
    some ({ s with e := s.e.setState id nodeState.failed, gs := s.gs.set i (id, GPc.deferred) },
      Event.stateSet id nodeState.failed)
  | GPc.persisted =>
    some ({ s with e := s.e.setState id nodeState.success, gs := s.gs.set i (id, GPc.deferred) },
      Event.stateSet id nodeState.success)
  | GPc.deferred =>
    if s.sem = 0 then none
    else some ({ s with sem := s.sem - 1, gs := s.gs.set i (id, GPc.released) },
      Event.semReleased id)
  | GPc.released =>
    if s.wg = 0 then some ({ s with panicked := true }, Event.wgDone id)
    else some ({ s with wg := s.wg - 1, gs := s.gs.set i (id, GPc.done) }, Event.wgDone id)
  | _ => none

/-- Return of `backoff.Retry` in goroutine `i` (lines 81-94): on an error `setError`, else
the merge of `out` into `artifacts`. -/
def retryStep (s : RunState) (i : Nat) (id : String) (result : RetryResult) :
    Option (RunState × Event) :=
  match result with
  | RetryResult.failed err =>
    some ({ s with e := s.e.setError id (some err), gs := s.gs.set i (id, GPc.erred) },
      Event.retried id result)
  | RetryResult.succeeded out =>
    match persist s.artifacts out with
    | none => some ({ s with panicked := true }, Event.retried id result)
    | some arts =>
      some ({ s with artifacts := arts, gs := s.gs.set i (id, GPc.persisted) },
        Event.retried id result)

/-- One step of `Run` under `workers`; `none` when the action is not enabled.  After a
panic nothing runs. -/
def runStep (workers : Nat) (s : RunState) (a : Action) : Option (RunState × Event) :=
  if s.panicked then none
  else
    match a with
    | Action.go i =>
      match s.gs[i]? with
      | some (id, pc) => goStep s i id pc
      | none => none
    | Action.retry i result =>
      match s.gs[i]? with
      | some (id, GPc.retrying _) => retryStep s i id result
      | _ => none
    | a => mainStep workers s a

/-- Replay of a schedule from `s` with the log `log` (most recent event first). -/
def runFrom (workers : Nat) : RunState → List Event → List Action → Option (RunState × List Event)
  | s, log, [] => some (s, log)
  | s, log, a :: rest =>
    match runStep workers s a with
    | none => none
    | some (s', ev) => runFrom workers s' (ev :: log) rest

/-- State at the call `e.Run(ctx, rootCtxArtifacts, workers)` (lines 42-44). -/
def initial (e : dagEngine) (rootCtxArtifacts : Option Artifacts) : RunState :=
  { e := e, artifacts := rootCtxArtifacts, sem := 0, wg := 0, main := MainPc.loopTop,
    gs := [], panicked := false }

/-- `Run` under a schedule: the state reached and the log, most recent event first;
`none` when the schedule asks for a step that is not enabled. -/
def dagEngine.Run (e : dagEngine) (rootCtxArtifacts : Option Artifacts) (workers : Nat)
    (schedule : List Action) : Option (RunState × List Event) :=
  runFrom workers (initial e rootCtxArtifacts) [] schedule

/-- The steps of `runStep`, one constructor per case: `Step workers s ev s'` when some
action takes `s` to `s'` with the event `ev` (see `runStep_sound`). -/
inductive Step (workers : Nat) : RunState → Event → RunState → Prop
  | ready (s : RunState) (order : List String) (hp : s.panicked = false)
      (hmain : s.main = MainPc.loopTop) (hperm : order.Perm s.e.ready) :
      Step workers s (Event.readied order)
        { s with main := if order = [] then MainPc.waiting else MainPc.dispatching order }
  | dispatch (s : RunState) (id : String) (rest : List String) (hp : s.panicked = false)
      (hmain : s.main = MainPc.dispatching (id :: rest)) (hsem : s.sem < workers) :
      Step workers s (Event.dispatched id)
        { s with
          sem := s.sem + 1
          wg := s.wg + 1
          gs := s.gs ++ [(id, GPc.spawned)]
          main := afterDispatch rest }
  | wait (s : RunState) (order : List (String × GoError)) (hp : s.panicked = false)
      (hmain : s.main = MainPc.waiting) (hwg : s.wg = 0)
      (hperm : order.Perm s.e.errs.entries) :
      Step workers s (Event.returned (firstError order))
        { s with main := MainPc.returned (firstError order) }
  | setRunning (s : RunState) (i : Nat) (id : String) (hp : s.panicked = false)
      (hg : s.gs[i]? = some (id, GPc.spawned)) :
      Step workers s (Event.stateSet id nodeState.running)
        { s with e := s.e.setState id nodeState.running, gs := s.gs.set i (id, GPc.copying) }
  | copy (s : RunState) (i : Nat) (id : String) (hp : s.panicked = false)
      (hg : s.gs[i]? = some (id, GPc.copying)) :
      Step workers s (Event.copied id)
        { s with gs := s.gs.set i (id, GPc.retrying (snapshot s.artifacts)) }
  | setFailed (s : RunState) (i : Nat) (id : String) (hp : s.panicked = false)
      (hg : s.gs[i]? = some (id, GPc.erred)) :
      Step workers s (Event.stateSet id nodeState.failed)
        { s with e := s.e.setState id nodeState.failed, gs := s.gs.set i (id, GPc.deferred) }
  | setSuccess (s : RunState) (i : Nat) (id : String) (hp : s.panicked = false)
      (hg : s.gs[i]? = some (id, GPc.persisted)) :
      Step workers s (Event.stateSet id nodeState.success)
        { s with e := s.e.setState id nodeState.success, gs := s.gs.set i (id, GPc.deferred) }
  | release (s : RunState) (i : Nat) (id : String) (hp : s.panicked = false)
      (hg : s.gs[i]? = some (id, GPc.deferred)) (hsem : s.sem ≠ 0) :
      Step workers s (Event.semReleased id)
        { s with sem := s.sem - 1, gs := s.gs.set i (id, GPc.released) }
  | wgDone (s : RunState) (i : Nat) (id : String) (hp : s.panicked = false)
      (hg : s.gs[i]? = some (id, GPc.released)) (hwg : s.wg ≠ 0) :
      Step workers s (Event.wgDone id)
        { s with wg := s.wg - 1, gs := s.gs.set i (id, GPc.done) }
  | wgPanic (s : RunState) (i : Nat) (id : String) (hp : s.panicked = false)
      (hg : s.gs[i]? = some (id, GPc.released)) (hwg : s.wg = 0) :
      Step workers s (Event.wgDone id) { s with panicked := true }
  | retryFailed (s : RunState) (i : Nat) (id : String) (inp : Artifacts) (err : String)
      (hp : s.panicked = false) (hg : s.gs[i]? = some (id, GPc.retrying inp)) :
      Step workers s (Event.retried id (RetryResult.failed err))
        { s with e := s.e.setError id (some err), gs := s.gs.set i (id, GPc.erred) }
  | retryOk (s : RunState) (i : Nat) (id : String) (inp : Artifacts) (out : Option Artifacts)
      (arts : Option Artifacts) (hp : s.panicked = false)
      (hg : s.gs[i]? = some (id, GPc.retrying inp)) (hpersist : persist s.artifacts out = some arts) :
      Step workers s (Event.retried id (RetryResult.succeeded out))
        { s with artifacts := arts, gs := s.gs.set i (id, GPc.persisted) }
  | retryPanic (s : RunState) (i : Nat) (id : String) (inp : Artifacts) (out : Option Artifacts)
      (hp : s.panicked = false) (hg : s.gs[i]? = some (id, GPc.retrying inp))
      (hpersist : persist s.artifacts out = none) :
      Step workers s (Event.retried id (RetryResult.succeeded out)) { s with panicked := true }

/-! ## Invariants of `Run` -/

/-- Every occurrence of `q` in the log (most recent event first) has an occurrence of `p`
before it in time. -/
def Precedes (p q : Event) (log : List Event) : Prop :=
  ∀ later earlier, log = later ++ q :: earlier → p ∈ earlier

/-- Invariant of `Run` behind the dispatch order: with `edges` the edges of the engine,
a `success` in the state map was set by an earlier step, and every id that is queued in
`executable`, runs in a goroutine, or has been dispatched or set to `running`, had all
its dependencies set to `success` before. -/
structure DepsInv (edges : GoMap (List String)) (s : RunState) (log : List Event) : Prop where
  frame : s.e.edges = edges
  succeeded : ∀ d, s.e.state.get? d = some nodeState.success →
    Event.stateSet d nodeState.success ∈ log
  queued : ∀ l, s.main = MainPc.dispatching l → ∀ id ∈ l, ∀ d ∈ edges.index id [],
    Event.stateSet d nodeState.success ∈ log
  started : ∀ g ∈ s.gs, ∀ d ∈ edges.index g.1 [], Event.stateSet d nodeState.success ∈ log
  dispatched : ∀ id, ∀ d ∈ edges.index id [],
    Precedes (Event.stateSet d nodeState.success) (Event.dispatched id) log
  running : ∀ id, ∀ d ∈ edges.index id [],
    Precedes (Event.stateSet d nodeState.success) (Event.stateSet id nodeState.running) log

/-- Positions of a goroutine that holds a value of `sem`: from its start to `<-sem`. -/
def holdsSlot : GPc → Bool
  | GPc.released => false
  | GPc.done => false
  | _ => true

/-- Positions between `setState(id, running)` and `setState(id, failed)` or
`setState(id, success)`. -/
def inRunningPhase : GPc → Bool
  | GPc.copying => true
  | GPc.retrying _ => true
  | GPc.erred => true
  | GPc.persisted => true
  | _ => false

/-- Number of tasks whose state is `running`. -/
def runningCount (e : dagEngine) : Nat :=
  (e.state.entries.filter (fun p => p.2 = nodeState.running)).length

/-- Number of goroutines that hold a value of `sem`. -/
def slotHolders (s : RunState) : Nat := s.gs.countP (fun g => holdsSlot g.2)

/-- Invariant of `Run` behind the pool bound: `sem` holds one value per goroutine that has
not yet received from it, at most `workers`, and a task in state `running` has a goroutine
between its `setState(id, running)` and its final `setState`. -/
structure PoolInv (workers : Nat) (s : RunState) : Prop where
  semCount : s.sem = slotHolders s
  semLe : s.sem ≤ workers
  runningOwned : ∀ id, s.e.state.get? id = some nodeState.running →
    ∃ (j : Nat) (pc : GPc), s.gs[j]? = some (id, pc) ∧ inRunningPhase pc = true

/-- Invariant of `Run` behind its result: every recorded error is non-nil, `wg` counts the
goroutines that are not finished, a task in state `failed` (or whose goroutine is about to
set it) has a recorded error, and a returned result is nil exactly when no error is
recorded. -/
structure ResultInv (s : RunState) : Prop where
  errsSome : ∀ p ∈ s.e.errs.entries, p.2 ≠ none
  wgCount : s.wg = s.gs.countP (fun g => decide (g.2 ≠ GPc.done))
  failedRecorded : ∀ id, s.e.state.get? id = some nodeState.failed → s.e.errs.get? id ≠ none
  erredRecorded : ∀ g ∈ s.gs, g.2 = GPc.erred → s.e.errs.get? g.1 ≠ none
  returned : ∀ r, s.main = MainPc.returned r →
    s.wg = 0 ∧ (r = none ↔ s.e.errs.entries = [])

/-- Ids that can never become ready in the engine `e`: each id of `S` has, among its
edges, an id of `S` or an id without a state entry.  The ids of a dependency cycle form
such a set, and so does an id with a dependency that no task has. -/
def Blocked (e : dagEngine) (S : List String) : Prop :=
  ∀ id ∈ S, ∃ d ∈ e.edges.index id [], d ∈ S ∨ e.state.get? d = none

instance instDecidableBlocked (e : dagEngine) (S : List String) : Decidable (Blocked e S) := by
  unfold Blocked
  infer_instance

/-- Invariant of `Run` for a blocked set `S` of the engine `e0` it started from: the ids
of `S` keep their state, ids without a state entry get none, and no id of `S` is queued in
`executable`, runs in a goroutine or has been dispatched. -/
structure BlockedInv (e0 : dagEngine) (S : List String) (s : RunState) (log : List Event) :
    Prop where
  frame : s.e.edges = e0.edges
  unknown : ∀ d, e0.state.get? d = none → s.e.state.get? d = none
  kept : ∀ id ∈ S, s.e.state.get? id = e0.state.get? id
  queued : ∀ l, s.main = MainPc.dispatching l → ∀ id ∈ l, id ∉ S ∧ e0.state.get? id ≠ none
  started : ∀ g ∈ s.gs, g.1 ∉ S ∧ e0.state.get? g.1 ≠ none
  notDispatched : ∀ id ∈ S, Event.dispatched id ∉ log

/-! ## Example task sets and schedules -/

/-- A task `A` without dependencies. -/
def taskA : Task := { ID := "A", Deps := [], MaxRetries := 0, Timeout := 1, Cacheable := false }

/-- A task `B` that depends on `A`. -/
def taskB : Task :=
  { ID := "B", Deps := ["A"], MaxRetries := 0, Timeout := 1, Cacheable := false }

/-- A task `C` whose only dependency `X` is not the id of any task. -/
def taskC : Task :=
  { ID := "C", Deps := ["X"], MaxRetries := 0, Timeout := 1, Cacheable := false }

/-- A task `D` without dependencies. -/
def taskD : Task := { ID := "D", Deps := [], MaxRetries := 0, Timeout := 1, Cacheable := false }

/-- A task `B` that depends on `C2`, and a task `C2` that depends on `B`: a cycle. -/
def taskCycleB : Task :=
  { ID := "B", Deps := ["C2"], MaxRetries := 0, Timeout := 1, Cacheable := false }

/-- The other task of the cycle. -/
def taskCycleC : Task :=
  { ID := "C2", Deps := ["B"], MaxRetries := 0, Timeout := 1, Cacheable := false }

/-- Schedule in which the single ready task `A` runs to `success` and `Run` returns. -/
def soloSchedule : List Action :=
  [Action.ready ["A"], Action.dispatch, Action.go 0, Action.go 0,
   Action.retry 0 (RetryResult.succeeded none), Action.go 0, Action.go 0, Action.go 0,
   Action.ready [], Action.wait []]

/-- Schedule for `[taskA, taskB]`: `A` runs to `success`, the loop then finds `B` ready,
dispatches it, and `B` runs to `success`; `Run` returns. -/
def chainSchedule : List Action :=
  [Action.ready ["A"], Action.dispatch, Action.go 0, Action.go 0,
   Action.retry 0 (RetryResult.succeeded none), Action.go 0,
   Action.ready ["B"], Action.dispatch, Action.go 1, Action.go 1,
   Action.retry 1 (RetryResult.succeeded none), Action.go 1,
   Action.go 0, Action.go 0, Action.go 1, Action.go 1,
   Action.ready [], Action.wait []]

/-- Schedule for `[taskA, taskB]`: `A` is dispatched and set to `running`; the loop calls
`ready` again while `A` runs, gets nothing, and leaves the loop; `A` succeeds and `Run`
returns. -/
def earlyReturnSchedule : List Action :=
  [Action.ready ["A"], Action.dispatch, Action.go 0,
   Action.ready [],
   Action.go 0, Action.retry 0 (RetryResult.succeeded none), Action.go 0, Action.go 0,
   Action.go 0,
   Action.wait []]

/-- Schedule for `[taskA]` with one worker: the loop calls `ready` a second time before the
goroutine of `A` has set `running`, so `A` is in `executable` again; the second dispatch
waits for the slot, and the second goroutine sets `A` to `running` after its `success`. -/
def doubleDispatchSchedule : List Action :=
  [Action.ready ["A"], Action.dispatch,
   Action.ready ["A"],
   Action.go 0, Action.go 0, Action.retry 0 (RetryResult.succeeded none), Action.go 0,
   Action.go 0,
   Action.dispatch, Action.go 1]

/-- Schedule for `[taskA, taskB]` with two workers: `A` is dispatched twice (as in
`doubleDispatchSchedule`); its first goroutine fails and `A` is recorded as failed; its
second goroutine succeeds; the loop then finds `B` ready and `B` runs. -/
def failedThenDispatchedSchedule : List Action :=
  [Action.ready ["A"], Action.dispatch,
   Action.ready ["A"], Action.dispatch,
   Action.go 0, Action.go 0, Action.retry 0 (RetryResult.failed "boom"), Action.go 0,
   Action.go 1, Action.go 1, Action.retry 1 (RetryResult.succeeded none), Action.go 1,
   Action.ready ["B"],
   Action.go 0, Action.go 0,
   Action.dispatch, Action.go 2, Action.go 2, Action.retry 2 (RetryResult.succeeded none),
   Action.go 2,
   Action.go 1, Action.go 1, Action.go 2, Action.go 2,
   Action.ready [], Action.wait [("A", some "boom")]]

/-- Schedule for `[taskA, taskD]` with two workers: both tasks are dispatched, both fail
(`A` with `errA`, `D` with `errD`), and the final loop ranges over `errs` in `order`. -/
def twoFailuresSchedule (order : List (String × GoError)) : List Action :=
  [Action.ready ["A", "D"], Action.dispatch, Action.dispatch,
   Action.go 0, Action.go 1, Action.go 0, Action.go 1,
   Action.retry 0 (RetryResult.failed "errA"), Action.retry 1 (RetryResult.failed "errD"),
   Action.go 0, Action.go 1, Action.go 0, Action.go 1, Action.go 0, Action.go 1,
   Action.ready [], Action.wait order]

end Dag

/-!
# The segment filter of `scraper/segmentation.go`

The checks that `Segment` makes on one transcript segment before it cuts the audio
(lines 41-89).  A `float64` is a `Float64`: not-a-number, an infinity or a finite number.
The subtraction, the conversions of the counters and the division round to the nearest
`float64` (ties to even), as do the constants `0.60`, `0.50` and `2.0`; the comparisons are
those of IEEE 754 (false on not-a-number).
-/

namespace Scraper

/-- A `float64` value.  A finite value is the rational number it denotes (the two zeros
are one value: no operation of `Segment` tells them apart). -/
inductive Float64
  | nan
  | negInf
  | posInf
  | finite (q : ℚ)
deriving DecidableEq

/-- The integer nearest to `q`, the even one when two are nearest. -/
def roundHalfEven (q : ℚ) : ℤ :=
  if q - ⌊q⌋ < 1 / 2 then ⌊q⌋
  else if 1 / 2 < q - ⌊q⌋ then ⌊q⌋ + 1
  else if ⌊q⌋ % 2 = 0 then ⌊q⌋ else ⌊q⌋ + 1

/-- The spacing of the `float64` numbers around `x`: `2 ^ (e - 52)` for
`2 ^ e ≤ |x| < 2 ^ (e + 1)`, with `e` at least `-1022` (below, the numbers are subnormal). -/
def unitInLastPlace (x : ℚ) : ℚ := 2 ^ (max (Int.log 2 |x|) (-1022) - 52)

/-- The number with a significand of 53 bits nearest to `x`, ties to even, before the test
for overflow. -/
def roundFinite (x : ℚ) : ℚ :=
  if x = 0 then 0 else roundHalfEven (x / unitInLastPlace x) * unitInLastPlace x

namespace Float64

/-- The `float64` nearest to the real number `x` (IEEE 754 round to nearest, ties to even):
an infinity when the rounded magnitude reaches `2 ^ 1024`. -/
def ofRat (x : ℚ) : Float64 :=
  if 2 ^ 1024 ≤ |roundFinite x| then (if 0 < x then posInf else negInf)
  else finite (roundFinite x)

/-- Go `a < b` on `float64`. -/
def lt : Float64 → Float64 → Bool
  | finite a, finite b => decide (a < b)
  | negInf, finite _ => true
  | negInf, posInf => true
  | finite _, posInf => true
  | _, _ => false

/-- Go `a <= b` on `float64`. -/
def le : Float64 → Float64 → Bool
  | finite a, finite b => decide (a ≤ b)
  | negInf, negInf => true
  | negInf, finite _ => true
  | negInf, posInf => true
  | finite _, posInf => true
  | posInf, posInf => true
  | _, _ => false

/-- Go `a - b` on `float64`. -/
def sub : Float64 → Float64 → Float64
  | finite a, finite b => ofRat (a - b)
  | nan, _ => nan
  | _, nan => nan
  | posInf, posInf => nan
  | negInf, negInf => nan
  | posInf, _ => posInf
  | negInf, _ => negInf
  | finite _, posInf => negInf
  | finite _, negInf => posInf

end Float64

/-- Type `TimeAlignedWord` of `transciption.go`. -/
structure TimeAlignedWord where
  Start : Float64
  End : Float64
  Word : String
  ConfidenceScore : Float64

/-- Type `TranscriptSegment` of `transciption.go`. -/
structure TranscriptSegment where
  Text : String
  Start : Float64
  End : Float64
  Words : List TimeAlignedWord

/-- Constant `confidenceThreshold = 0.60`, as the `float64` it is compared as. -/
def confidenceThreshold : Float64 := Float64.ofRat (60 / 100)

/-- Constant `consecutiveLowConfidenceThreshold = 3`. -/
def consecutiveLowConfidenceThreshold : Nat := 3

/-- Constant `percentageLowConfidenceThresholdWithinSegment = 0.50`, as a `float64`. -/
def percentageLowConfidenceThresholdWithinSegment : Float64 := Float64.ofRat (50 / 100)

/-- Constant `minSegmentDurationSeconds = 2.0`, as a `float64`. -/
def minSegmentDurationSeconds : Float64 := Float64.ofRat 2

/-- The three counters of the loop over `seg.Words` (lines 57-59). -/
structure WordCounters where
  lowConfidenceCount : Nat
  consecutiveLowConfidence : Nat
  maxConsecutiveLowConfidence : Nat
deriving DecidableEq, Repr

/-- Body of the loop over `seg.Words` for one word (lines 62-70). -/
def countWord (c : WordCounters) (word : TimeAlignedWord) : WordCounters :=
  if word.ConfidenceScore.lt confidenceThreshold then
    { c with
      lowConfidenceCount := c.lowConfidenceCount + 1
      consecutiveLowConfidence := c.consecutiveLowConfidence + 1 }
  else
    { c with
      maxConsecutiveLowConfidence :=
        if c.consecutiveLowConfidence > c.maxConsecutiveLowConfidence then
          c.consecutiveLowConfidence
        else c.maxConsecutiveLowConfidence
      consecutiveLowConfidence := 0 }

/-- Lines 57-75: the loop from zeroed counters, then the check for the last sequence. -/
def countWords (words : List TimeAlignedWord) : WordCounters :=
  let c := words.foldl countWord ⟨0, 0, 0⟩
  if c.consecutiveLowConfidence > c.maxConsecutiveLowConfidence then
    { c with maxConsecutiveLowConfidence := c.consecutiveLowConfidence }
  else c

/-- Line 78: `float64(lowConfidenceCount) / float64(len(seg.Words))` for a positive length;
the two conversions and the quotient are rounded. -/
def percentageLowConfidence (lowConfidenceCount len : Nat) : Float64 :=
  Float64.ofRat (roundFinite lowConfidenceCount / roundFinite len)

/-- What the checks of `Segment` decide for one segment: one of the four `continue`
statements of lines 44-88, or on to the extraction of the audio. -/
inductive SegmentCheck
  | tooShort
  | invalidTimes
  | lowConfidencePercentage
  | consecutiveLowConfidence
  | extract
deriving DecidableEq, Repr

/-- Lines 41-89 of `Segment` for one segment (`a >= b` is `b <= a`, `a > b` is `b < a`). -/
def checkSegment (seg : TranscriptSegment) : SegmentCheck :=
  if (seg.End.sub seg.Start).lt minSegmentDurationSeconds then SegmentCheck.tooShort
  else if seg.End.le seg.Start || seg.Start.lt (Float64.ofRat 0) then
    SegmentCheck.invalidTimes
  else if seg.Words.length > 0 then
    if percentageLowConfidenceThresholdWithinSegment.lt
        (percentageLowConfidence (countWords seg.Words).lowConfidenceCount
          seg.Words.length) then
      SegmentCheck.lowConfidencePercentage
    else if (countWords seg.Words).maxConsecutiveLowConfidence
        ≥ consecutiveLowConfidenceThreshold then
      SegmentCheck.consecutiveLowConfidence
    else SegmentCheck.extract
  else SegmentCheck.extract

/-- Follows the claim's words: the number of words at the start of `words` with a
confidence score below 0.60, up to the first word that has not. -/
def lowRunAtStart : List TimeAlignedWord → Nat
  | [] => 0
  | w :: ws =>
    if w.ConfidenceScore.lt (Float64.ofRat (60 / 100)) then lowRunAtStart ws + 1 else 0

/-- Follows the claim's words: the length of the longest run of consecutive words with a
confidence score below 0.60, a run being counted from each position of the list. -/
def longestLowRun : List TimeAlignedWord → Nat
  | [] => 0
  | w :: ws => max (lowRunAtStart (w :: ws)) (longestLowRun ws)

/-- A word with confidence score 0.5. -/
def lowWord : TimeAlignedWord :=
  { Start := Float64.finite 0, End := Float64.finite 1, Word := "la",
    ConfidenceScore := Float64.finite (1 / 2) }

/-- A word with confidence score 0.9 (the `float64` nearest to it). -/
def highWord : TimeAlignedWord :=
  { Start := Float64.finite 0, End := Float64.finite 1, Word := "la",
    ConfidenceScore := Float64.ofRat (9 / 10) }

/-- A segment of three seconds with six words: three consecutive words with score 0.5,
then three words with score 0.9. -/
def threeLowSegment : TranscriptSegment :=
  { Text := "la la la la la la", Start := Float64.finite 0, End := Float64.finite 3,
    Words := [lowWord, lowWord, lowWord, highWord, highWord, highWord] }

/-- A segment without words from 0.001 to 2.001 seconds, both as the nearest `float64`:
the real difference of the two is below 2, their `float64` difference is 2. -/
def roundedDurationSegment : TranscriptSegment :=
  { Text := "", Start := Float64.ofRat (1 / 1000), End := Float64.ofRat (2001 / 1000),
    Words := [] }

end Scraper

/-! # Theorems -/

namespace Dag

/-! ## Go maps: lookups after assignments -/

theorem find_assign_entries {V : Type} (k k' : String) (v : V) (l : List (String × V)) :
    ((l.filter (fun p => p.1 ≠ k) ++ [(k, v)]).find? (fun p => p.1 = k')).map Prod.snd
      = if k' = k then some v else (l.find? (fun p => p.1 = k')).map Prod.snd := by
  induction l with
  | nil =>
    by_cases h : k' = k
    · subst h; simp
    · have h' : ¬ k = k' := fun e => h e.symm
      simp [h, h']
  | cons x xs ih =>
    by_cases hx : x.1 = k
    · have : List.filter (fun p => decide (p.1 ≠ k)) (x :: xs)
          = List.filter (fun p => decide (p.1 ≠ k)) xs := by simp [hx]
      rw [this, ih]
      by_cases h : k' = k
      · simp [h]
      · have h' : ¬ x.1 = k' := fun e => h (e.symm.trans hx)
        simp [h, List.find?_cons, h']
    · have : List.filter (fun p => decide (p.1 ≠ k)) (x :: xs)
          = x :: List.filter (fun p => decide (p.1 ≠ k)) xs := by simp [hx]
      rw [this, List.cons_append, List.find?_cons, List.find?_cons]
      by_cases hk : x.1 = k'
      · have h : ¬ k' = k := fun e => hx (hk.trans e)
        simp [hk, h]
      · simp only [hk, decide_False]
        exact ih

theorem GoMap.get_set {V : Type} (m : GoMap V) (k k' : String) (v : V) :
    (m.set k v).get? k' = if k' = k then some v else m.get? k' :=
  find_assign_entries k k' v m.entries

theorem GoMap.get_set_self {V : Type} (m : GoMap V) (k : String) (v : V) :
    (m.set k v).get? k = some v := by
  rw [GoMap.get_set]; simp

theorem GoMap.get_set_other {V : Type} (m : GoMap V) {k k' : String} (v : V) (h : k' ≠ k) :
    (m.set k v).get? k' = m.get? k' := by
  rw [GoMap.get_set]; simp [h]

theorem GoMap.index_set {V : Type} (m : GoMap V) (k k' : String) (v zero : V) :
    (m.set k v).index k' zero = if k' = k then v else m.index k' zero := by
  unfold GoMap.index
  rw [GoMap.get_set]
  split <;> rfl

theorem GoMap.get_empty {V : Type} (k : String) : (GoMap.empty : GoMap V).get? k = none := rfl

theorem mem_entries_of_nodup {V : Type} (l : List (String × V))
    (hl : (l.map Prod.fst).Nodup) (k : String) (v : V) :
    (k, v) ∈ l ↔ (l.find? (fun p => p.1 = k)).map Prod.snd = some v := by
  induction l with
  | nil => simp
  | cons x xs ih =>
    rw [List.map_cons, List.nodup_cons] at hl
    rw [List.find?_cons]
    by_cases hx : x.1 = k
    · simp only [hx, decide_True, Option.map_some', Option.some.injEq, List.mem_cons]
      constructor
      · rintro (h | h)
        · rw [← h]
        · exact absurd (List.mem_map_of_mem Prod.fst h) (by simpa [hx] using hl.1)
      · intro h
        left
        rw [← h, ← hx]
    · simp only [hx, decide_False, List.mem_cons]
      rw [← ih hl.2]
      constructor
      · rintro (h | h)
        · exact absurd (by rw [← h]) hx
        · exact h
      · exact Or.inr

theorem GoMap.mem_entries_iff {V : Type} (m : GoMap V) (k : String) (v : V) :
    (k, v) ∈ m.entries ↔ m.get? k = some v :=
  mem_entries_of_nodup m.entries m.nodupKeys k v

theorem GoMap.mem_keys_iff {V : Type} (m : GoMap V) (k : String) :
    k ∈ m.keys ↔ ∃ v, m.get? k = some v := by
  unfold GoMap.keys
  rw [List.mem_map]
  constructor
  · rintro ⟨⟨k1, v⟩, hmem, rfl⟩
    exact ⟨v, (m.mem_entries_iff k1 v).1 hmem⟩
  · rintro ⟨v, hv⟩
    exact ⟨(k, v), (m.mem_entries_iff k v).2 hv, rfl⟩

/-! ## `NewEngine` -/

theorem foldl_register_inv (P : dagEngine → Prop)
    (hstep : ∀ e t, P e → P (register e t)) :
    ∀ (tasks : List Task) (e : dagEngine), P e → P (tasks.foldl register e) := by
  intro tasks
  induction tasks with
  | nil => intro e he; exact he
  | cons t ts ih => intro e he; exact ih (register e t) (hstep e t he)

/-- Every task that `NewEngine` holds has its own `Deps()` as edges and is pending. -/
theorem NewEngine_registered (tasks : List Task) (id : String) (t : Task)
    (h : (NewEngine tasks).nodes.get? id = some t) :
    (NewEngine tasks).edges.get? id = some t.Deps
      ∧ (NewEngine tasks).state.get? id = some nodeState.pending := by
  have key : ∀ id t, (NewEngine tasks).nodes.get? id = some t →
      (NewEngine tasks).edges.get? id = some t.Deps
        ∧ (NewEngine tasks).state.get? id = some nodeState.pending := by
    refine foldl_register_inv
      (fun e => ∀ id t, e.nodes.get? id = some t →
        e.edges.get? id = some t.Deps ∧ e.state.get? id = some nodeState.pending)
      ?_ tasks _ ?_
    · intro e t0 he id t ht
      simp only [register, GoMap.get_set] at ht ⊢
      by_cases hid : id = t0.ID
      · simp only [hid, if_true, Option.some.injEq] at ht ⊢
        subst ht
        simp
      · simp only [hid, if_false] at ht ⊢
        exact he id t ht
    · intro id t ht
      simp [GoMap.get_empty] at ht
  exact key id t h

/-- The state map that `NewEngine` builds holds `pending` only. -/
theorem NewEngine_state_pending (tasks : List Task) (id : String) (st : nodeState)
    (h : (NewEngine tasks).state.get? id = some st) : st = nodeState.pending := by
  have key : ∀ id st, (NewEngine tasks).state.get? id = some st → st = nodeState.pending := by
    refine foldl_register_inv
      (fun e => ∀ id st, e.state.get? id = some st → st = nodeState.pending) ?_ tasks _ ?_
    · intro e t0 he id st hst
      simp only [register, GoMap.get_set] at hst
      by_cases hid : id = t0.ID
      · simp only [hid, if_true, Option.some.injEq] at hst
        exact hst.symm
      · simp only [hid, if_false] at hst
        exact he id st hst
    · intro id st hst
      simp [GoMap.get_empty] at hst
  exact key id st h

/-- The error map that `NewEngine` builds is empty. -/
theorem NewEngine_errs (tasks : List Task) : (NewEngine tasks).errs = GoMap.empty :=
  foldl_register_inv (fun e => e.errs = GoMap.empty) (fun _ _ he => he) tasks _ rfl

/-- Every task of the list is registered under its id, pending. -/
theorem NewEngine_listed (tasks : List Task) (t : Task) (ht : t ∈ tasks) :
    (NewEngine tasks).state.get? t.ID = some nodeState.pending := by
  have mono : ∀ (ts : List Task) (e : dagEngine),
      e.state.get? t.ID = some nodeState.pending →
      (ts.foldl register e).state.get? t.ID = some nodeState.pending := by
    intro ts
    refine foldl_register_inv (fun e => e.state.get? t.ID = some nodeState.pending) ?_ ts
    intro e t0 he
    simp only [register, GoMap.get_set]
    split
    · rfl
    · exact he
  have key : ∀ (ts : List Task) (e : dagEngine), t ∈ ts →
      (ts.foldl register e).state.get? t.ID = some nodeState.pending := by
    intro ts
    induction ts with
    | nil => intro e h; simp at h
    | cons t0 ts ih =>
      intro e h
      rw [List.foldl_cons]
      rcases List.mem_cons.1 h with h | h
      · subst h
        apply mono
        simp [register, GoMap.get_set]
      · exact ih _ h
  exact key tasks _ ht

/-- For an id that occurs several times in the list, the engine holds the last task. -/
theorem NewEngine_last (pre post : List Task) (t : Task)
    (hpost : ∀ t' ∈ post, t'.ID ≠ t.ID) :
    (NewEngine (pre ++ t :: post)).nodes.get? t.ID = some t := by
  have key : ∀ (ts : List Task) (e : dagEngine), (∀ t' ∈ ts, t'.ID ≠ t.ID) →
      e.nodes.get? t.ID = some t → (ts.foldl register e).nodes.get? t.ID = some t := by
    intro ts
    induction ts with
    | nil => intro e _ he; exact he
    | cons t0 ts ih =>
      intro e hts he
      rw [List.foldl_cons]
      refine ih _ (fun t' ht' => hts t' (List.mem_cons_of_mem _ ht')) ?_
      have hne : t.ID ≠ t0.ID := fun h => hts t0 (List.mem_cons_self _ _) h.symm
      simp only [register, GoMap.get_set_other _ _ hne]
      exact he
  unfold NewEngine
  rw [List.foldl_append, List.foldl_cons]
  exact key post _ hpost (by simp [register, GoMap.get_set_self])

/-! ## `ready` -/

theorem GoMap.index_eq_iff {V : Type} (m : GoMap V) (k : String) (zero v : V) (h : v ≠ zero) :
    m.index k zero = v ↔ m.get? k = some v := by
  unfold GoMap.index
  cases hk : m.get? k with
  | none => simp [Ne.symm h]
  | some w => simp

theorem depsSucceeded_iff (e : dagEngine) (deps : List String) :
    depsSucceeded e deps = true ↔ ∀ d ∈ deps, e.state.get? d = some nodeState.success := by
  unfold depsSucceeded
  rw [List.all_eq_true]
  constructor
  · intro h d hd
    have := h d hd
    rw [decide_eq_true_eq] at this
    exact (e.state.index_eq_iff d _ _ (by decide)).1 this
  · intro h d hd
    rw [decide_eq_true_eq]
    exact (e.state.index_eq_iff d _ _ (by decide)).2 (h d hd)

theorem mem_ready_iff (e : dagEngine) (id : String) :
    id ∈ e.ready ↔ e.state.get? id = some nodeState.pending
      ∧ ∀ d ∈ e.edges.index id [], e.state.get? d = some nodeState.success := by
  unfold dagEngine.ready
  rw [List.mem_map]
  constructor
  · rintro ⟨⟨k, st⟩, hmem, rfl⟩
    rw [List.mem_filter, Bool.and_eq_true, decide_eq_true_eq, depsSucceeded_iff] at hmem
    obtain ⟨hin, hst, hdeps⟩ := hmem
    simp only at hst hdeps
    subst hst
    exact ⟨(e.state.mem_entries_iff k _).1 hin, hdeps⟩
  · rintro ⟨hst, hdeps⟩
    refine ⟨(id, nodeState.pending), ?_, rfl⟩
    rw [List.mem_filter, Bool.and_eq_true, decide_eq_true_eq, depsSucceeded_iff]
    exact ⟨(e.state.mem_entries_iff id _).2 hst, rfl, hdeps⟩

theorem ready_nodup (e : dagEngine) : e.ready.Nodup := by
  unfold dagEngine.ready
  exact e.state.nodupKeys.sublist ((List.filter_sublist _).map _)

/-- C2: in every engine state `ready` returns exactly the ids whose state is `pending` and
all of whose dependency ids (the edges of the id, none when it has no entry) have state
`success`, each id once; and in the engine that `NewEngine` builds, every task held by the
engine whose `Deps()` is empty is in the ready set. -/
theorem ready_spec (e : dagEngine) (tasks : List Task) :
    (∀ id, id ∈ e.ready ↔
        e.state.get? id = some nodeState.pending
          ∧ ∀ d ∈ e.edges.index id [], e.state.get? d = some nodeState.success)
      ∧ e.ready.Nodup
      ∧ (∀ id t, (NewEngine tasks).nodes.get? id = some t → t.Deps = [] →
          id ∈ (NewEngine tasks).ready) := by
  refine ⟨mem_ready_iff e, ready_nodup e, ?_⟩
  intro id t ht hdeps
  obtain ⟨hedges, hstate⟩ := NewEngine_registered tasks id t ht
  rw [mem_ready_iff]
  refine ⟨hstate, ?_⟩
  intro d hd
  simp [GoMap.index, hedges, hdeps] at hd

/-! ## Steps of `Run` -/

theorem runStep_sound (workers : Nat) (s s' : RunState) (a : Action) (ev : Event)
    (h : runStep workers s a = some (s', ev)) : Step workers s ev s' := by
  unfold runStep at h
  by_cases hp : s.panicked = true
  · simp [hp] at h
  · have hp' : s.panicked = false := by simpa using hp
    simp only [hp', Bool.false_eq_true, if_false] at h
    cases a with
    | ready order =>
      simp only [mainStep] at h
      split at h
      · rename_i hmain
        split at h
        · rename_i hperm
          simp only [Option.some.injEq, Prod.mk.injEq] at h
          obtain ⟨rfl, rfl⟩ := h
          exact Step.ready s order hp' hmain hperm
        · exact absurd h (by simp)
      · exact absurd h (by simp)
    | dispatch =>
      simp only [mainStep] at h
      split at h
      · rename_i id rest hmain
        split at h
        · rename_i hsem
          simp only [Option.some.injEq, Prod.mk.injEq] at h
          obtain ⟨rfl, rfl⟩ := h
          exact Step.dispatch s id rest hp' hmain hsem
        · exact absurd h (by simp)
      · exact absurd h (by simp)
    | wait order =>
      simp only [mainStep] at h
      split at h
      · rename_i hmain
        split at h
        · rename_i hc
          simp only [Option.some.injEq, Prod.mk.injEq] at h
          obtain ⟨rfl, rfl⟩ := h
          exact Step.wait s order hp' hmain hc.1 hc.2
        · exact absurd h (by simp)
      · exact absurd h (by simp)
    | go i =>
      simp only at h
      split at h
      · rename_i id pc hg
        cases pc with
        | spawned =>
          simp only [goStep, Option.some.injEq, Prod.mk.injEq] at h
          obtain ⟨rfl, rfl⟩ := h
          exact Step.setRunning s i id hp' hg
        | copying =>
          simp only [goStep, Option.some.injEq, Prod.mk.injEq] at h
          obtain ⟨rfl, rfl⟩ := h
          exact Step.copy s i id hp' hg
        | retrying inp => simp [goStep] at h
        | erred =>
          simp only [goStep, Option.some.injEq, Prod.mk.injEq] at h
          obtain ⟨rfl, rfl⟩ := h
          exact Step.setFailed s i id hp' hg
        | persisted =>
          simp only [goStep, Option.some.injEq, Prod.mk.injEq] at h
          obtain ⟨rfl, rfl⟩ := h
          exact Step.setSuccess s i id hp' hg
        | deferred =>
          simp only [goStep] at h
          split at h
          · exact absurd h (by simp)
          · rename_i hsem
            simp only [Option.some.injEq, Prod.mk.injEq] at h
            obtain ⟨rfl, rfl⟩ := h
            exact Step.release s i id hp' hg hsem
        | released =>
          simp only [goStep] at h
          split at h
          · rename_i hwg
            simp only [Option.some.injEq, Prod.mk.injEq] at h
            obtain ⟨rfl, rfl⟩ := h
            exact Step.wgPanic s i id hp' hg hwg
          · rename_i hwg
            simp only [Option.some.injEq, Prod.mk.injEq] at h
            obtain ⟨rfl, rfl⟩ := h
            exact Step.wgDone s i id hp' hg hwg
        | done => simp [goStep] at h
      · exact absurd h (by simp)
    | retry i result =>
      simp only at h
      split at h
      · rename_i id inp hg
        unfold retryStep at h
        cases result with
        | failed err =>
          simp only [Option.some.injEq, Prod.mk.injEq] at h
          obtain ⟨rfl, rfl⟩ := h
          exact Step.retryFailed s i id inp err hp' hg
        | succeeded out =>
          simp only at h
          split at h
          · rename_i hpersist
            simp only [Option.some.injEq, Prod.mk.injEq] at h
            obtain ⟨rfl, rfl⟩ := h
            exact Step.retryPanic s i id inp out hp' hg hpersist
          · rename_i arts hpersist
            simp only [Option.some.injEq, Prod.mk.injEq] at h
            obtain ⟨rfl, rfl⟩ := h
            exact Step.retryOk s i id inp out arts hp' hg hpersist
      · exact absurd h (by simp)

/-- An invariant of the steps holds after every schedule. -/
theorem runFrom_inv (workers : Nat) (P : RunState → List Event → Prop)
    (hstep : ∀ s log ev s', P s log → Step workers s ev s' → P s' (ev :: log)) :
    ∀ (schedule : List Action) (s : RunState) (log : List Event) (s' : RunState)
      (log' : List Event),
      P s log → runFrom workers s log schedule = some (s', log') → P s' log' := by
  intro schedule
  induction schedule with
  | nil =>
    intro s log s' log' hP h
    simp only [runFrom, Option.some.injEq, Prod.mk.injEq] at h
    obtain ⟨rfl, rfl⟩ := h
    exact hP
  | cons a rest ih =>
    intro s log s' log' hP h
    simp only [runFrom] at h
    split at h
    · exact absurd h (by simp)
    · rename_i s1 ev hs
      exact ih s1 (ev :: log) s' log' (hstep s log ev s1 hP (runStep_sound workers s s1 a ev hs)) h

/-! ## What one step changes -/

theorem Step.frame {workers : Nat} {s s' : RunState} {ev : Event} (h : Step workers s ev s') :
    s'.e.edges = s.e.edges ∧ s'.e.nodes = s.e.nodes := by
  cases h <;> exact ⟨rfl, rfl⟩

/-- The state of a task changes only by a `setState` of that task. -/
theorem Step.state_get {workers : Nat} {s s' : RunState} {ev : Event}
    (h : Step workers s ev s') (d : String) :
    s'.e.state.get? d = s.e.state.get? d
      ∨ ∃ st, ev = Event.stateSet d st ∧ s'.e.state.get? d = some st := by
  cases h with
  | setRunning i id hp hg =>
    by_cases hd : d = id
    · subst hd; right; exact ⟨_, rfl, GoMap.get_set_self _ _ _⟩
    · left; exact GoMap.get_set_other _ _ hd
  | setFailed i id hp hg =>
    by_cases hd : d = id
    · subst hd; right; exact ⟨_, rfl, GoMap.get_set_self _ _ _⟩
    · left; exact GoMap.get_set_other _ _ hd
  | setSuccess i id hp hg =>
    by_cases hd : d = id
    · subst hd; right; exact ⟨_, rfl, GoMap.get_set_self _ _ _⟩
    · left; exact GoMap.get_set_other _ _ hd
  | _ => left; rfl

/-- The ids left in `executable` after a step were there before, or `ready` just
returned them. -/
theorem Step.main_dispatching {workers : Nat} {s s' : RunState} {ev : Event}
    (h : Step workers s ev s') (l : List String) (hl : s'.main = MainPc.dispatching l) :
    s.main = MainPc.dispatching l ∨ (∃ id, s.main = MainPc.dispatching (id :: l))
      ∨ (s.main = MainPc.loopTop ∧ l.Perm s.e.ready) := by
  cases h with
  | ready order hp hmain hperm =>
    right; right
    refine ⟨hmain, ?_⟩
    simp only at hl
    split at hl
    · exact absurd hl (by simp)
    · simp only [MainPc.dispatching.injEq] at hl
      subst hl
      exact hperm
  | dispatch id rest hp hmain hsem =>
    right; left
    simp only [afterDispatch] at hl
    split at hl
    · exact absurd hl (by simp)
    · simp only [MainPc.dispatching.injEq] at hl
      subst hl
      exact ⟨id, hmain⟩
  | wait order hp hmain hwg hperm => simp at hl
  | _ => left; exact hl

theorem mem_set_fst {gs : List (String × GPc)} {i : Nat} {id : String} {pc pc' : GPc}
    (hg : gs[i]? = some (id, pc)) {g : String × GPc} (h : g ∈ gs.set i (id, pc')) :
    ∃ g0 ∈ gs, g0.1 = g.1 := by
  rcases List.mem_or_eq_of_mem_set h with h | h
  · exact ⟨g, h, rfl⟩
  · subst h
    exact ⟨(id, pc), List.getElem?_mem hg, rfl⟩

/-- A goroutine after a step runs the id of a goroutine before it, or the id that was
first in `executable`. -/
theorem Step.gs_mem {workers : Nat} {s s' : RunState} {ev : Event}
    (h : Step workers s ev s') (g : String × GPc) (hmem : g ∈ s'.gs) :
    (∃ g0 ∈ s.gs, g0.1 = g.1) ∨ ∃ rest, s.main = MainPc.dispatching (g.1 :: rest) := by
  cases h with
  | ready order hp hmain hperm => left; exact ⟨g, hmem, rfl⟩
  | dispatch id rest hp hmain hsem =>
    rcases List.mem_append.1 hmem with h | h
    · left; exact ⟨g, h, rfl⟩
    · right
      simp only [List.mem_singleton] at h
      subst h
      exact ⟨rest, hmain⟩
  | wait order hp hmain hwg hperm => left; exact ⟨g, hmem, rfl⟩
  | setRunning i id hp hg => left; exact mem_set_fst hg hmem
  | copy i id hp hg => left; exact mem_set_fst hg hmem
  | setFailed i id hp hg => left; exact mem_set_fst hg hmem
  | setSuccess i id hp hg => left; exact mem_set_fst hg hmem
  | release i id hp hg hsem => left; exact mem_set_fst hg hmem
  | wgDone i id hp hg hwg => left; exact mem_set_fst hg hmem
  | wgPanic i id hp hg hwg => left; exact ⟨g, hmem, rfl⟩
  | retryFailed i id inp err hp hg => left; exact mem_set_fst hg hmem
  | retryOk i id inp out arts hp hg hpersist => left; exact mem_set_fst hg hmem
  | retryPanic i id inp out hp hg hpersist => left; exact ⟨g, hmem, rfl⟩

/-- A dispatch starts the id that is first in `executable`. -/
theorem Step.dispatched_inv {workers : Nat} {s s' : RunState} {id : String}
    (h : Step workers s (Event.dispatched id) s') :
    ∃ rest, s.main = MainPc.dispatching (id :: rest) := by
  cases h with
  | dispatch id rest hp hmain hsem => exact ⟨rest, hmain⟩

/-- A state is set by a goroutine of that id. -/
theorem Step.stateSet_inv {workers : Nat} {s s' : RunState} {id : String} {st : nodeState}
    (h : Step workers s (Event.stateSet id st) s') : ∃ pc, (id, pc) ∈ s.gs := by
  cases h with
  | setRunning i id hp hg => exact ⟨_, List.getElem?_mem hg⟩
  | setFailed i id hp hg => exact ⟨_, List.getElem?_mem hg⟩
  | setSuccess i id hp hg => exact ⟨_, List.getElem?_mem hg⟩

theorem Precedes.cons {p q ev : Event} {log : List Event} (h : Precedes p q log)
    (hnew : ev = q → p ∈ log) : Precedes p q (ev :: log) := by
  intro later earlier hsplit
  cases later with
  | nil =>
    simp only [List.nil_append, List.cons.injEq] at hsplit
    obtain ⟨h1, h2⟩ := hsplit
    subst h2
    exact hnew h1
  | cons x later' =>
    simp only [List.cons_append, List.cons.injEq] at hsplit
    exact h later' earlier hsplit.2

/-! ## Dispatch order -/

theorem depsInv_step (workers : Nat) (edges : GoMap (List String)) (s : RunState)
    (log : List Event) (ev : Event) (s' : RunState) (hI : DepsInv edges s log)
    (h : Step workers s ev s') : DepsInv edges s' (ev :: log) := by
  have hmono : ∀ x, x ∈ log → x ∈ ev :: log := fun x hx => List.mem_cons_of_mem _ hx
  have hqueued : ∀ id rest, s.main = MainPc.dispatching (id :: rest) →
      ∀ d ∈ edges.index id [], Event.stateSet d nodeState.success ∈ log :=
    fun id rest hm d hd => hI.queued _ hm id (List.mem_cons_self _ _) d hd
  refine ⟨h.frame.1.trans hI.frame, ?_, ?_, ?_, ?_, ?_⟩
  · intro d hd
    rcases h.state_get d with hsame | ⟨st, hev, hst⟩
    · exact hmono _ (hI.succeeded d (hsame ▸ hd))
    · rw [hst, Option.some.injEq] at hd
      subst hd
      rw [hev]
      exact List.mem_cons_self _ _
  · intro l hl id hid d hd
    apply hmono
    rcases h.main_dispatching l hl with hm | ⟨id0, hm⟩ | ⟨_, hperm⟩
    · exact hI.queued l hm id hid d hd
    · exact hI.queued _ hm id (List.mem_cons_of_mem _ hid) d hd
    · have hready : id ∈ s.e.ready := hperm.subset hid
      rw [mem_ready_iff, hI.frame] at hready
      exact hI.succeeded d (hready.2 d hd)
  · intro g hg d hd
    apply hmono
    rcases h.gs_mem g hg with ⟨g0, hg0, hfst⟩ | ⟨rest, hm⟩
    · exact hI.started g0 hg0 d (hfst ▸ hd)
    · exact hqueued _ rest hm d hd
  · intro id d hd
    refine (hI.dispatched id d hd).cons ?_
    intro hev
    subst hev
    obtain ⟨rest, hm⟩ := h.dispatched_inv
    exact hqueued id rest hm d hd
  · intro id d hd
    refine (hI.running id d hd).cons ?_
    intro hev
    subst hev
    obtain ⟨pc, hg⟩ := h.stateSet_inv
    exact hI.started _ hg d hd

theorem depsInv_initial (tasks : List Task) (rootCtxArtifacts : Option Artifacts) :
    DepsInv (NewEngine tasks).edges (initial (NewEngine tasks) rootCtxArtifacts) [] := by
  refine ⟨rfl, ?_, ?_, ?_, ?_, ?_⟩
  · intro d hd
    exact absurd (NewEngine_state_pending tasks d _ hd) (by decide)
  · intro l hl
    simp [initial] at hl
  · intro g hg
    simp [initial] at hg
  · intro id d _ later earlier hsplit
    simp at hsplit
  · intro id d _ later earlier hsplit
    simp at hsplit

/-- C1: in every execution of `Run` on the engine that `NewEngine` builds, whenever a task
held by the engine is dispatched, and whenever it is set to `running`, each id in its
`Deps()` has been set to `success` by an earlier step (the log has the most recent event
first). -/
theorem dispatch_after_deps (tasks : List Task) (rootCtxArtifacts : Option Artifacts)
    (workers : Nat) (schedule : List Action) (s : RunState) (log : List Event)
    (hrun : (NewEngine tasks).Run rootCtxArtifacts workers schedule = some (s, log))
    (id : String) (t : Task) (ht : (NewEngine tasks).nodes.get? id = some t)
    (d : String) (hd : d ∈ t.Deps) :
    Precedes (Event.stateSet d nodeState.success) (Event.dispatched id) log
      ∧ Precedes (Event.stateSet d nodeState.success) (Event.stateSet id nodeState.running) log := by
  have hI : DepsInv (NewEngine tasks).edges s log :=
    runFrom_inv workers (DepsInv (NewEngine tasks).edges)
      (fun s log ev s' hP hs => depsInv_step workers _ s log ev s' hP hs)
      schedule _ [] s log (depsInv_initial tasks rootCtxArtifacts) hrun
  have hedges : d ∈ (NewEngine tasks).edges.index id [] := by
    simp [GoMap.index, (NewEngine_registered tasks id t ht).1, hd]
  exact ⟨hI.dispatched id d hedges, hI.running id d hedges⟩

theorem dispatch_after_deps_witness :
    ∃ s log, (NewEngine [taskA, taskB]).Run none 2 chainSchedule = some (s, log)
      ∧ Event.dispatched "B" ∈ log
      ∧ Precedes (Event.stateSet "A" nodeState.success) (Event.dispatched "B") log
      ∧ Precedes (Event.stateSet "A" nodeState.success)
          (Event.stateSet "B" nodeState.running) log :=
  ⟨_, _, rfl, by decide,
    dispatch_after_deps [taskA, taskB] none 2 chainSchedule _ _ rfl "B" taskB (by decide) "A"
      (by decide)⟩

/-! ## Pool bound -/

theorem countP_set_add {α : Type} (p : α → Bool) (x y : α) :
    ∀ (l : List α) (i : Nat), l[i]? = some x →
      (l.set i y).countP p + (if p x then 1 else 0) = l.countP p + (if p y then 1 else 0) := by
  intro l
  induction l with
  | nil => intro i h; simp at h
  | cons a as ih =>
    intro i h
    cases i with
    | zero =>
      simp only [List.getElem?_cons_zero, Option.some.injEq] at h
      subst h
      simp only [List.set_cons_zero, List.countP_cons]
      omega
    | succ n =>
      simp only [List.getElem?_cons_succ] at h
      have := ih n h
      simp only [List.set_cons_succ, List.countP_cons]
      omega

theorem countP_set_same {α : Type} (p : α → Bool) {x : α} (y : α) {l : List α} {i : Nat}
    (h : l[i]? = some x) (hxy : p x = p y) : (l.set i y).countP p = l.countP p := by
  have := countP_set_add p x y l i h
  rw [hxy] at this
  omega

theorem countP_set_drop {α : Type} (p : α → Bool) {x : α} (y : α) {l : List α} {i : Nat}
    (h : l[i]? = some x) (hx : p x = true) (hy : p y = false) :
    (l.set i y).countP p = l.countP p - 1 ∧ 1 ≤ l.countP p := by
  have := countP_set_add p x y l i h
  simp only [hx, hy, if_true] at this
  simp only [Bool.false_eq_true, if_false] at this
  omega

theorem owned_set {gs : List (String × GPc)} {i : Nat} {id id' : String} {pc pc' : GPc}
    (hg : gs[i]? = some (id, pc))
    (hown : ∃ (j : Nat) (pc0 : GPc), gs[j]? = some (id', pc0) ∧ inRunningPhase pc0 = true)
    (hcase : id' ≠ id ∨ inRunningPhase pc = false ∨ inRunningPhase pc' = true) :
    ∃ (j : Nat) (pc0 : GPc), (gs.set i (id, pc'))[j]? = some (id', pc0) ∧ inRunningPhase pc0 = true := by
  obtain ⟨j, pc0, hj, hph⟩ := hown
  by_cases hji : j = i
  · subst hji
    rw [hg, Option.some.injEq, Prod.mk.injEq] at hj
    obtain ⟨h1, h2⟩ := hj
    subst h1 h2
    rcases hcase with hc | hc | hc
    · exact absurd rfl hc
    · rw [hc] at hph; exact absurd hph (by simp)
    · have hlt : j < gs.length := by
        by_contra hge
        rw [List.getElem?_eq_none (by omega)] at hg
        exact absurd hg (by simp)
      exact ⟨j, pc', List.getElem?_set_self hlt, hc⟩
  · exact ⟨j, pc0, by rw [List.getElem?_set_ne (Ne.symm hji)]; exact hj, hph⟩

theorem owned_self {gs : List (String × GPc)} {i : Nat} {id : String} {pc pc' : GPc}
    (hg : gs[i]? = some (id, pc)) (hph : inRunningPhase pc' = true) :
    ∃ (j : Nat) (pc0 : GPc), (gs.set i (id, pc'))[j]? = some (id, pc0) ∧ inRunningPhase pc0 = true := by
  have hlt : i < gs.length := by
    by_contra hge
    rw [List.getElem?_eq_none (by omega)] at hg
    exact absurd hg (by simp)
  exact ⟨i, pc', List.getElem?_set_self hlt, hph⟩

theorem poolInv_step (workers : Nat) (s : RunState) (ev : Event) (s' : RunState)
    (hI : PoolInv workers s) (h : Step workers s ev s') : PoolInv workers s' := by
  obtain ⟨hcount, hle, hown⟩ := hI
  unfold slotHolders at hcount
  cases h with
  | ready order hp hmain hperm => exact ⟨hcount, hle, hown⟩
  | wait order hp hmain hwg hperm => exact ⟨hcount, hle, hown⟩
  | wgPanic i id hp hg hwg => exact ⟨hcount, hle, hown⟩
  | retryPanic i id inp out hp hg hpersist => exact ⟨hcount, hle, hown⟩
  | dispatch id rest hp hmain hsem =>
    refine ⟨?_, hsem, ?_⟩
    · simp only [slotHolders, List.countP_append, hcount]
      rfl
    · intro id' hst
      obtain ⟨j, pc0, hj, hph⟩ := hown id' hst
      have hlt : j < s.gs.length := by
        by_contra hge
        rw [List.getElem?_eq_none (by omega)] at hj
        exact absurd hj (by simp)
      exact ⟨j, pc0, by simp only [List.getElem?_append_left hlt]; exact hj, hph⟩
  | setRunning i id hp hg =>
    refine ⟨?_, hle, ?_⟩
    · simp only [slotHolders]
      rw [countP_set_same (fun g : String × GPc => holdsSlot g.2) (id, GPc.copying) hg rfl]
      exact hcount
    · intro id' hst
      by_cases hid : id' = id
      · subst hid
        exact owned_self hg rfl
      · simp only [dagEngine.setState, GoMap.get_set_other _ _ hid] at hst
        exact owned_set hg (hown id' hst) (Or.inl hid)
  | copy i id hp hg =>
    refine ⟨?_, hle, ?_⟩
    · simp only [slotHolders]
      rw [countP_set_same (fun g : String × GPc => holdsSlot g.2) (id, GPc.retrying (snapshot s.artifacts)) hg rfl]
      exact hcount
    · intro id' hst
      exact owned_set hg (hown id' hst) (Or.inr (Or.inr rfl))
  | retryFailed i id inp err hp hg =>
    refine ⟨?_, hle, ?_⟩
    · simp only [slotHolders]
      rw [countP_set_same (fun g : String × GPc => holdsSlot g.2) (id, GPc.erred) hg rfl]
      exact hcount
    · intro id' hst
      exact owned_set hg (hown id' hst) (Or.inr (Or.inr rfl))
  | retryOk i id inp out arts hp hg hpersist =>
    refine ⟨?_, hle, ?_⟩
    · simp only [slotHolders]
      rw [countP_set_same (fun g : String × GPc => holdsSlot g.2) (id, GPc.persisted) hg rfl]
      exact hcount
    · intro id' hst
      exact owned_set hg (hown id' hst) (Or.inr (Or.inr rfl))
  | setFailed i id hp hg =>
    refine ⟨?_, hle, ?_⟩
    · simp only [slotHolders]
      rw [countP_set_same (fun g : String × GPc => holdsSlot g.2) (id, GPc.deferred) hg rfl]
      exact hcount
    · intro id' hst
      by_cases hid : id' = id
      · subst hid
        simp [dagEngine.setState, GoMap.get_set_self] at hst
      · simp only [dagEngine.setState, GoMap.get_set_other _ _ hid] at hst
        exact owned_set hg (hown id' hst) (Or.inl hid)
  | setSuccess i id hp hg =>
    refine ⟨?_, hle, ?_⟩
    · simp only [slotHolders]
      rw [countP_set_same (fun g : String × GPc => holdsSlot g.2) (id, GPc.deferred) hg rfl]
      exact hcount
    · intro id' hst
      by_cases hid : id' = id
      · subst hid
        simp [dagEngine.setState, GoMap.get_set_self] at hst
      · simp only [dagEngine.setState, GoMap.get_set_other _ _ hid] at hst
        exact owned_set hg (hown id' hst) (Or.inl hid)
  | release i id hp hg hsem =>
    have hdrop := countP_set_drop (fun g : String × GPc => holdsSlot g.2)
      (id, GPc.released) hg rfl rfl
    refine ⟨?_, ?_, ?_⟩
    · simp only [slotHolders]
      rw [hdrop.1, ← hcount]
    · simp only
      omega
    · intro id' hst
      exact owned_set hg (hown id' hst) (Or.inr (Or.inl rfl))
  | wgDone i id hp hg hwg =>
    refine ⟨?_, hle, ?_⟩
    · simp only [slotHolders]
      rw [countP_set_same (fun g : String × GPc => holdsSlot g.2) (id, GPc.done) hg rfl]
      exact hcount
    · intro id' hst
      exact owned_set hg (hown id' hst) (Or.inr (Or.inl rfl))

theorem poolInv_initial (tasks : List Task) (workers : Nat)
    (rootCtxArtifacts : Option Artifacts) :
    PoolInv workers (initial (NewEngine tasks) rootCtxArtifacts) := by
  refine ⟨rfl, Nat.zero_le _, ?_⟩
  intro id hst
  exact absurd (NewEngine_state_pending tasks id _ hst) (by decide)

theorem runningCount_le_slotHolders (workers : Nat) (s : RunState) (hI : PoolInv workers s) :
    runningCount s.e ≤ slotHolders s := by
  have hnodup : ((s.e.state.entries.filter (fun p => p.2 = nodeState.running)).map
      Prod.fst).Nodup :=
    s.e.state.nodupKeys.sublist ((List.filter_sublist _).map _)
  have hsub : (s.e.state.entries.filter (fun p => p.2 = nodeState.running)).map Prod.fst
      ⊆ (s.gs.filter (fun g => holdsSlot g.2)).map Prod.fst := by
    intro id hid
    rw [List.mem_map] at hid
    obtain ⟨⟨k, st⟩, hmem, rfl⟩ := hid
    rw [List.mem_filter, decide_eq_true_eq] at hmem
    obtain ⟨hin, hst⟩ := hmem
    simp only at hst
    subst hst
    obtain ⟨j, pc, hj, hph⟩ := hI.runningOwned k ((s.e.state.mem_entries_iff k _).1 hin)
    rw [List.mem_map]
    refine ⟨(k, pc), ?_, rfl⟩
    rw [List.mem_filter]
    refine ⟨List.getElem?_mem hj, ?_⟩
    cases pc <;> simp_all [inRunningPhase, holdsSlot]
  have hlen := (List.subperm_of_subset hnodup hsub).length_le
  simp only [List.length_map] at hlen
  unfold runningCount slotHolders
  rw [List.countP_eq_length_filter]
  exact hlen

/-- C8: in every execution of `Run` on the engine that `NewEngine` builds, for every pool
size `workers`, the number of tasks whose state is `running` is at most `workers`, and so
is the number of goroutines between their start and their receive from `sem`: with
`workers = 1` no two dispatched tasks are in execution at the same time. -/
theorem running_le_workers (tasks : List Task) (rootCtxArtifacts : Option Artifacts)
    (workers : Nat) (schedule : List Action) (s : RunState) (log : List Event)
    (hrun : (NewEngine tasks).Run rootCtxArtifacts workers schedule = some (s, log)) :
    runningCount s.e ≤ workers ∧ slotHolders s ≤ workers := by
  have hI : PoolInv workers s :=
    runFrom_inv workers (fun s _ => PoolInv workers s)
      (fun s _ ev s' hP hs => poolInv_step workers s ev s' hP hs)
      schedule _ [] s log (poolInv_initial tasks workers rootCtxArtifacts) hrun
  have hslots : slotHolders s ≤ workers := by
    rw [← hI.semCount]
    exact hI.semLe
  exact ⟨(runningCount_le_slotHolders workers s hI).trans hslots, hslots⟩

theorem running_le_workers_witness :
    ∃ s log, (NewEngine [taskA, taskB]).Run none 1
        [Action.ready ["A"], Action.dispatch, Action.go 0] = some (s, log)
      ∧ runningCount s.e = 1 ∧ runningCount s.e ≤ 1 ∧ slotHolders s ≤ 1 :=
  ⟨_, _, rfl, by decide,
    running_le_workers [taskA, taskB] none 1
      [Action.ready ["A"], Action.dispatch, Action.go 0] _ _ rfl⟩

/-! ## Executions that show the defects of the scheduling loop -/

/-- C3 (defect of the code): for the acyclic set `A`, `B` (`B` depends on `A`, both
known) `Run` returns `nil` although `B` is still dispatchable: `ready` was empty while `A`
was running, the loop ended, and at the return `B` is pending with its only dependency in
state `success`; `B` was never dispatched. -/
theorem run_returns_with_ready_task :
    ∃ s log, (NewEngine [taskA, taskB]).Run none 2 earlyReturnSchedule = some (s, log)
      ∧ s.main = MainPc.returned none
      ∧ s.e.state.get? "A" = some nodeState.success
      ∧ s.e.state.get? "B" = some nodeState.pending
      ∧ s.e.ready = ["B"]
      ∧ Event.dispatched "B" ∉ log :=
  ⟨_, _, rfl, by decide, by decide, by decide, by decide, by decide⟩

/-- C5 (defect of the code): with the single task `A` and one worker, `A` is dispatched
twice, and its state goes from `success` back to `running`. -/
theorem task_dispatched_twice :
    ∃ s, (NewEngine [taskA]).Run none 1 doubleDispatchSchedule = some (s,
        [Event.stateSet "A" nodeState.running, Event.dispatched "A", Event.semReleased "A",
         Event.stateSet "A" nodeState.success,
         Event.retried "A" (RetryResult.succeeded none), Event.copied "A",
         Event.stateSet "A" nodeState.running, Event.readied ["A"], Event.dispatched "A",
         Event.readied ["A"]])
      ∧ s.e.state.get? "A" = some nodeState.running :=
  ⟨_, rfl, by decide⟩

/-- C6 (defect of the code): `A` is recorded as failed, and `B`, which depends on `A`, is
dispatched after that, executed, and ends in state `success`. -/
theorem dependent_of_failed_dispatched :
    ∃ s log later earlier,
      (NewEngine [taskA, taskB]).Run none 2 failedThenDispatchedSchedule = some (s, log)
      ∧ log = later ++ Event.dispatched "B" :: earlier
      ∧ Event.stateSet "A" nodeState.failed ∈ earlier
      ∧ Event.retried "A" (RetryResult.failed "boom") ∈ earlier
      ∧ Event.retried "B" (RetryResult.succeeded none) ∈ later
      ∧ s.main = MainPc.returned (some "boom")
      ∧ s.e.errs.get? "A" = some (some "boom")
      ∧ s.e.state.get? "B" = some nodeState.success := by
  refine ⟨_, _,
    [Event.returned (some "boom"), Event.readied [], Event.wgDone "B", Event.semReleased "B",
     Event.wgDone "A", Event.semReleased "A", Event.stateSet "B" nodeState.success,
     Event.retried "B" (RetryResult.succeeded none), Event.copied "B",
     Event.stateSet "B" nodeState.running],
    [Event.wgDone "A", Event.semReleased "A", Event.readied ["B"],
     Event.stateSet "A" nodeState.success, Event.retried "A" (RetryResult.succeeded none),
     Event.copied "A", Event.stateSet "A" nodeState.running,
     Event.stateSet "A" nodeState.failed, Event.retried "A" (RetryResult.failed "boom"),
     Event.copied "A", Event.stateSet "A" nodeState.running, Event.dispatched "A",
     Event.readied ["A"], Event.dispatched "A", Event.readied ["A"]],
    rfl, by decide, by decide, by decide, by decide, by decide, by decide, by decide⟩

/-! ## The result of `Run` -/

theorem firstError_eq_none_iff (order : List (String × GoError)) :
    firstError order = none ↔ ∀ p ∈ order, p.2 = none := by
  induction order with
  | nil => simp [firstError]
  | cons x xs ih =>
    obtain ⟨k, err⟩ := x
    simp only [firstError, List.mem_cons, forall_eq_or_imp]
    by_cases herr : err = none
    · simp [herr, ih]
    · simp [herr]

theorem firstError_mem (order : List (String × GoError)) (err : String)
    (h : firstError order = some err) : ∃ id, (id, some err) ∈ order := by
  induction order with
  | nil => simp [firstError] at h
  | cons x xs ih =>
    obtain ⟨k, e⟩ := x
    simp only [firstError] at h
    by_cases he : e = none
    · simp only [he, ne_eq, not_true_eq_false, if_false] at h
      obtain ⟨id, hid⟩ := ih h
      exact ⟨id, List.mem_cons_of_mem _ hid⟩
    · simp only [ne_eq, he, not_false_eq_true, if_true] at h
      subst h
      exact ⟨k, List.mem_cons_self _ _⟩

theorem countP_pos_of_getElem {α : Type} (p : α → Bool) {l : List α} {i : Nat} {x : α}
    (h : l[i]? = some x) (hx : p x = true) : 1 ≤ l.countP p :=
  List.countP_pos_iff.2 ⟨x, List.getElem?_mem h, hx⟩

theorem GoMap.get_ne_none_set {V : Type} (m : GoMap V) (k k' : String) (v : V)
    (h : m.get? k' ≠ none) : (m.set k v).get? k' ≠ none := by
  rw [GoMap.get_set]
  split
  · simp
  · exact h

theorem mem_set_erred {gs : List (String × GPc)} {i : Nat} {id : String} {pc' : GPc}
    {g : String × GPc} (h : g ∈ gs.set i (id, pc')) (hg : g.2 = GPc.erred) :
    (g ∈ gs) ∨ (g = (id, pc') ∧ pc' = GPc.erred) := by
  rcases List.mem_or_eq_of_mem_set h with h | h
  · exact Or.inl h
  · subst h
    exact Or.inr ⟨rfl, hg⟩

theorem resultInv_step (workers : Nat) (s : RunState) (ev : Event) (s' : RunState)
    (hI : ResultInv s) (h : Step workers s ev s') : ResultInv s' := by
  obtain ⟨hsome, hwg, hfailed, herred, hret⟩ := hI
  have hidle : ∀ r, s.main = MainPc.returned r → ∀ (i : Nat) (g : String × GPc),
      s.gs[i]? = some g → g.2 ≠ GPc.done → False := by
    intro r hr i g hg hne
    have h1 := countP_pos_of_getElem (fun g : String × GPc => decide (g.2 ≠ GPc.done)) hg
      (by simpa using hne)
    have h2 := (hret r hr).1
    omega
  have hkeep : ∀ (i : Nat) (id : String) (pc pc' : GPc), s.gs[i]? = some (id, pc) →
      pc ≠ GPc.done → pc' ≠ GPc.done →
      s.wg = (s.gs.set i (id, pc')).countP (fun g => decide (g.2 ≠ GPc.done)) := by
    intro i id pc pc' hg hpc hpc'
    rw [countP_set_same (fun g : String × GPc => decide (g.2 ≠ GPc.done)) (id, pc') hg
      (by simp [hpc, hpc'])]
    exact hwg
  have herr' : ∀ (i : Nat) (id : String) (pc pc' : GPc), s.gs[i]? = some (id, pc) →
      pc' ≠ GPc.erred →
      ∀ g ∈ s.gs.set i (id, pc'), g.2 = GPc.erred → s.e.errs.get? g.1 ≠ none := by
    intro i id pc pc' _ hpc' g hg hge
    rcases mem_set_erred hg hge with h | ⟨_, h⟩
    · exact herred g h hge
    · exact absurd h hpc'
  cases h with
  | ready order hp hmain hperm =>
    refine ⟨hsome, hwg, hfailed, herred, ?_⟩
    intro r hr
    simp only at hr
    split at hr <;> exact absurd hr (by simp)
  | dispatch id rest hp hmain hsem =>
    refine ⟨hsome, ?_, hfailed, ?_, ?_⟩
    · simp only [List.countP_append, hwg]
      rfl
    · intro g hg hge
      rcases List.mem_append.1 hg with h | h
      · exact herred g h hge
      · simp only [List.mem_singleton] at h
        subst h
        exact absurd hge (by simp)
    · intro r hr
      simp only [afterDispatch] at hr
      split at hr <;> exact absurd hr (by simp)
  | wait order hp hmain hwg0 hperm =>
    refine ⟨hsome, hwg, hfailed, herred, ?_⟩
    intro r hr
    simp only [MainPc.returned.injEq] at hr
    subst hr
    refine ⟨hwg0, ?_⟩
    rw [firstError_eq_none_iff]
    constructor
    · intro hall
      cases horder : order with
      | nil => exact List.Perm.eq_nil (horder ▸ hperm).symm
      | cons x xs =>
        have hx : x ∈ order := by rw [horder]; exact List.mem_cons_self _ _
        exact absurd (hall x hx) (hsome x (hperm.subset hx))
    · intro hnil p hp
      have := hperm.subset hp
      rw [hnil] at this
      simp at this
  | setRunning i id hp hg =>
    refine ⟨hsome, hkeep i id _ _ hg (by simp) (by simp), ?_, herr' i id _ _ hg (by simp), ?_⟩
    · intro id' hst
      by_cases hid : id' = id
      · subst hid
        simp [dagEngine.setState, GoMap.get_set_self] at hst
      · simp only [dagEngine.setState, GoMap.get_set_other _ _ hid] at hst
        exact hfailed id' hst
    · intro r hr
      exact (hidle r hr i _ hg (by simp)).elim
  | copy i id hp hg =>
    refine ⟨hsome, hkeep i id _ _ hg (by simp) (by simp), hfailed,
      herr' i id _ _ hg (by simp), ?_⟩
    intro r hr
    exact (hidle r hr i _ hg (by simp)).elim
  | setFailed i id hp hg =>
    refine ⟨hsome, hkeep i id _ _ hg (by simp) (by simp), ?_, herr' i id _ _ hg (by simp), ?_⟩
    · intro id' hst
      by_cases hid : id' = id
      · subst hid
        exact herred _ (List.getElem?_mem hg) rfl
      · simp only [dagEngine.setState, GoMap.get_set_other _ _ hid] at hst
        exact hfailed id' hst
    · intro r hr
      exact (hidle r hr i _ hg (by simp)).elim
  | setSuccess i id hp hg =>
    refine ⟨hsome, hkeep i id _ _ hg (by simp) (by simp), ?_, herr' i id _ _ hg (by simp), ?_⟩
    · intro id' hst
      by_cases hid : id' = id
      · subst hid
        simp [dagEngine.setState, GoMap.get_set_self] at hst
      · simp only [dagEngine.setState, GoMap.get_set_other _ _ hid] at hst
        exact hfailed id' hst
    · intro r hr
      exact (hidle r hr i _ hg (by simp)).elim
  | release i id hp hg hsem =>
    refine ⟨hsome, hkeep i id _ _ hg (by simp) (by simp), hfailed,
      herr' i id _ _ hg (by simp), ?_⟩
    intro r hr
    exact (hidle r hr i _ hg (by simp)).elim
  | wgDone i id hp hg hwg0 =>
    have hdrop := countP_set_drop (fun g : String × GPc => decide (g.2 ≠ GPc.done))
      (id, GPc.done) hg (by simp) (by simp)
    refine ⟨hsome, ?_, hfailed, herr' i id _ _ hg (by simp), ?_⟩
    · simp only
      rw [hdrop.1, ← hwg]
    · intro r hr
      exact (hidle r hr i _ hg (by simp)).elim
  | wgPanic i id hp hg hwg0 => exact ⟨hsome, hwg, hfailed, herred, hret⟩
  | retryPanic i id inp out hp hg hpersist => exact ⟨hsome, hwg, hfailed, herred, hret⟩
  | retryOk i id inp out arts hp hg hpersist =>
    refine ⟨hsome, hkeep i id _ _ hg (by simp) (by simp), hfailed,
      herr' i id _ _ hg (by simp), ?_⟩
    intro r hr
    exact (hidle r hr i _ hg (by simp)).elim
  | retryFailed i id inp err hp hg =>
    refine ⟨?_, hkeep i id _ _ hg (by simp) (by simp), ?_, ?_, ?_⟩
    · intro p hp
      obtain ⟨k, v⟩ := p
      have hget := (GoMap.mem_entries_iff _ k v).1 hp
      simp only [dagEngine.setError, GoMap.get_set] at hget
      split at hget
      · simp only [Option.some.injEq] at hget
        subst hget
        simp
      · exact hsome (k, v) ((GoMap.mem_entries_iff _ k v).2 hget)
    · intro id' hst
      exact GoMap.get_ne_none_set _ _ _ _ (hfailed id' hst)
    · intro g hg' hge
      rcases mem_set_erred hg' hge with h | ⟨h, _⟩
      · exact GoMap.get_ne_none_set _ _ _ _ (herred g h hge)
      · subst h
        simp [dagEngine.setError, GoMap.get_set_self]
    · intro r hr
      exact (hidle r hr i _ hg (by simp)).elim

theorem resultInv_initial (tasks : List Task) (rootCtxArtifacts : Option Artifacts) :
    ResultInv (initial (NewEngine tasks) rootCtxArtifacts) := by
  refine ⟨?_, rfl, ?_, ?_, ?_⟩
  · intro p hp
    simp [initial, NewEngine_errs, GoMap.empty] at hp
  · intro id hst
    exact absurd (NewEngine_state_pending tasks id _ hst) (by decide)
  · intro g hg
    simp [initial] at hg
  · intro r hr
    simp [initial] at hr

/-- C4 (as amended): in every execution of `Run` on the engine that `NewEngine` builds, once
`Run` has returned, its result is `nil` if and only if no error is recorded in `errs`; and
when it is `nil` no task is in state `failed` (tasks may still be pending). -/
theorem run_nil_iff_no_error (tasks : List Task) (rootCtxArtifacts : Option Artifacts)
    (workers : Nat) (schedule : List Action) (s : RunState) (log : List Event)
    (hrun : (NewEngine tasks).Run rootCtxArtifacts workers schedule = some (s, log))
    (r : GoError) (hret : s.main = MainPc.returned r) :
    (r = none ↔ s.e.errs.entries = [])
      ∧ (r = none → ∀ id, s.e.state.get? id ≠ some nodeState.failed) := by
  have hI : ResultInv s :=
    runFrom_inv workers (fun s _ => ResultInv s)
      (fun s _ ev s' hP hs => resultInv_step workers s ev s' hP hs)
      schedule _ [] s log (resultInv_initial tasks rootCtxArtifacts) hrun
  refine ⟨(hI.returned r hret).2, ?_⟩
  intro hr id hst
  have hnil := (hI.returned r hret).2.1 hr
  have := hI.failedRecorded id hst
  apply this
  simp [GoMap.get?, hnil]

theorem run_nil_iff_no_error_witness :
    ∃ s log, (NewEngine [taskA, taskB]).Run none 2 chainSchedule = some (s, log)
      ∧ s.main = MainPc.returned none
      ∧ ((none : GoError) = none ↔ s.e.errs.entries = [])
      ∧ ((none : GoError) = none → ∀ id, s.e.state.get? id ≠ some nodeState.failed) :=
  ⟨_, _, rfl, by decide,
    run_nil_iff_no_error [taskA, taskB] none 2 chainSchedule _ _ rfl none (by decide)⟩

/-- C4 (counterexample): for the task list `[taskC]`, whose task depends on an id that no
task has, `Run` returns `nil` although the task has not reached `success`: it is still
pending. -/
theorem run_nil_with_pending_task :
    ∃ s log, (NewEngine [taskC]).Run none 1 [Action.ready [], Action.wait []] = some (s, log)
      ∧ s.main = MainPc.returned none
      ∧ s.e.state.get? "C" = some nodeState.pending
      ∧ ¬ (s.main = MainPc.returned none ↔
            ∀ id ∈ s.e.state.keys, s.e.state.get? id = some nodeState.success) :=
  ⟨_, _, rfl, by decide, by decide, by decide⟩

/-! ## The error that `Run` returns -/

theorem runFrom_append (workers : Nat) (first second : List Action) :
    ∀ (s : RunState) (log : List Event),
      runFrom workers s log (first ++ second)
        = match runFrom workers s log first with
          | none => none
          | some (s', log') => runFrom workers s' log' second := by
  induction first with
  | nil => intro s log; rfl
  | cons a rest ih =>
    intro s log
    simp only [List.cons_append, runFrom]
    cases runStep workers s a with
    | none => rfl
    | some r => exact ih r.1 (r.2 :: log)

/-- The step `Action.wait order`: the loop is at `wg.Wait()`, no goroutine is left, `order`
is an iteration order of `errs`, and `Run` returns `firstError order`. -/
theorem runStep_wait (workers : Nat) (s s' : RunState) (order : List (String × GoError))
    (ev : Event) (h : runStep workers s (Action.wait order) = some (s', ev)) :
    s.wg = 0 ∧ order.Perm s.e.errs.entries
      ∧ s' = { s with main := MainPc.returned (firstError order) } := by
  unfold runStep at h
  by_cases hp : s.panicked = true
  · simp [hp] at h
  · rw [if_neg hp] at h
    simp only [mainStep] at h
    split at h
    · split at h
      · rename_i hc
        simp only [Option.some.injEq, Prod.mk.injEq] at h
        exact ⟨hc.1, hc.2, h.1.symm⟩
      · exact absurd h (by simp)
    · exact absurd h (by simp)

/-- When every entry holds a non-nil error, the final loop returns the error of the first
entry of the iteration. -/
theorem firstError_eq_head (order : List (String × GoError)) (h : ∀ p ∈ order, p.2 ≠ none) :
    firstError order = order.head?.bind Prod.snd := by
  cases order with
  | nil => rfl
  | cons p rest =>
    have hp : p.2 ≠ none := h p (List.mem_cons_self _ _)
    simp only [firstError, hp, ne_eq, not_false_eq_true, if_true, List.head?_cons,
      Option.some_bind]

/-- C9 (as amended): in every execution of `Run` on the engine that `NewEngine` builds
that ends with the final loop ranging over `errs` in the order `order`, that order lists
exactly the entries of `errs`, every recorded error is non-nil, and `Run` returns the error
of the first entry of `order` (`nil` when `errs` has no entry): one recorded error, which
is recorded in `errs` for some task, and no other.  The result is fixed by the recorded
errors when these are all the same error, as when a single task has one. -/
theorem run_returns_first_recorded_error (tasks : List Task)
    (rootCtxArtifacts : Option Artifacts) (workers : Nat) (schedule : List Action)
    (order : List (String × GoError)) (s : RunState) (log : List Event)
    (hrun : (NewEngine tasks).Run rootCtxArtifacts workers (schedule ++ [Action.wait order])
      = some (s, log)) :
    order.Perm s.e.errs.entries
      ∧ (∀ p ∈ order, p.2 ≠ none)
      ∧ s.main = MainPc.returned (order.head?.bind Prod.snd)
      ∧ (∀ err, s.main = MainPc.returned (some err) →
          ∃ id, s.e.errs.get? id = some (some err))
      ∧ (∀ err, s.e.errs.entries ≠ [] → (∀ p ∈ s.e.errs.entries, p.2 = err) →
          s.main = MainPc.returned err) := by
  unfold dagEngine.Run at hrun
  rw [runFrom_append] at hrun
  cases hfirst : runFrom workers (initial (NewEngine tasks) rootCtxArtifacts) [] schedule with
  | none => rw [hfirst] at hrun; exact absurd hrun (by simp)
  | some r =>
    obtain ⟨s1, log1⟩ := r
    rw [hfirst] at hrun
    simp only [runFrom] at hrun
    cases hstep : runStep workers s1 (Action.wait order) with
    | none => rw [hstep] at hrun; exact absurd hrun (by simp)
    | some r' =>
      obtain ⟨s2, ev⟩ := r'
      rw [hstep] at hrun
      simp only [Option.some.injEq, Prod.mk.injEq] at hrun
      obtain ⟨hs, _⟩ := hrun
      subst hs
      obtain ⟨_, hperm, hs2⟩ := runStep_wait workers s1 s2 order ev hstep
      have hI : ResultInv s1 :=
        runFrom_inv workers (fun s _ => ResultInv s)
          (fun s _ ev s' hP hs => resultInv_step workers s ev s' hP hs)
          schedule _ [] s1 log1 (resultInv_initial tasks rootCtxArtifacts) hfirst
      have hsome : ∀ p ∈ order, p.2 ≠ none := fun p hp => hI.errsSome p (hperm.subset hp)
      have hhead := firstError_eq_head order hsome
      subst hs2
      refine ⟨hperm, hsome, by rw [← hhead], ?_, ?_⟩
      · intro err herr
        simp only [MainPc.returned.injEq] at herr
        obtain ⟨id, hid⟩ := firstError_mem order err herr
        exact ⟨id, (GoMap.mem_entries_iff _ id _).1 (hperm.subset hid)⟩
      · intro err hne hall
        simp only [MainPc.returned.injEq]
        rw [hhead]
        cases order with
        | nil => exact absurd (List.Perm.nil_eq hperm).symm hne
        | cons p rest =>
          simp only [List.head?_cons, Option.some_bind]
          exact hall p (hperm.subset (List.mem_cons_self _ _))

theorem run_returns_first_recorded_error_witness :
    ∃ s log, (NewEngine [taskA, taskD]).Run none 2
        ((twoFailuresSchedule []).dropLast
          ++ [Action.wait [("D", some "errD"), ("A", some "errA")]]) = some (s, log)
      ∧ s.main = MainPc.returned (some "errD")
      ∧ ([("D", some "errD"), ("A", some "errA")].Perm s.e.errs.entries
        ∧ (∀ p ∈ [(("D" : String), (some "errD" : GoError)), ("A", some "errA")], p.2 ≠ none)
        ∧ s.main = MainPc.returned
            ([(("D" : String), (some "errD" : GoError)), ("A", some "errA")].head?.bind Prod.snd)
        ∧ (∀ err, s.main = MainPc.returned (some err) →
            ∃ id, s.e.errs.get? id = some (some err))
        ∧ (∀ err, s.e.errs.entries ≠ [] → (∀ p ∈ s.e.errs.entries, p.2 = err) →
            s.main = MainPc.returned err)) :=
  ⟨_, _, rfl, by decide,
    run_returns_first_recorded_error [taskA, taskD] none 2 (twoFailuresSchedule []).dropLast
      [("D", some "errD"), ("A", some "errA")] _ _ rfl⟩

/-- C9 (counterexample): two executions of `Run` in which the same two tasks fail with
the same errors, and which differ only in the order of the final iteration over `errs`,
return different errors. -/
theorem returned_error_depends_on_order :
    ∃ s1 log1 s2 log2,
      (NewEngine [taskA, taskD]).Run none 2
          (twoFailuresSchedule [("A", some "errA"), ("D", some "errD")]) = some (s1, log1)
      ∧ (NewEngine [taskA, taskD]).Run none 2
          (twoFailuresSchedule [("D", some "errD"), ("A", some "errA")]) = some (s2, log2)
      ∧ s1.e = s2.e
      ∧ s1.main = MainPc.returned (some "errA")
      ∧ s2.main = MainPc.returned (some "errD") :=
  ⟨_, _, _, _, rfl, rfl, by decide, by decide, by decide⟩

/-! ## The merge of a task's output -/

theorem assignAll_some (l : List (String × String)) :
    ∀ m : Artifacts, assignAll (some m) l
      = some (some (l.foldl (fun acc p => acc.set p.1 p.2) m)) := by
  induction l with
  | nil => intro m; rfl
  | cons x xs ih =>
    intro m
    obtain ⟨k, v⟩ := x
    simp only [assignAll, List.foldl_cons]
    exact ih (m.set k v)

theorem get_foldl_set (l : List (String × String)) (hl : (l.map Prod.fst).Nodup)
    (k : String) :
    ∀ m : Artifacts, (l.foldl (fun acc p => acc.set p.1 p.2) m).get? k
      = ((l.find? (fun p => p.1 = k)).map Prod.snd).or (m.get? k) := by
  induction l with
  | nil => intro m; simp
  | cons x xs ih =>
    intro m
    rw [List.map_cons, List.nodup_cons] at hl
    rw [List.foldl_cons, ih hl.2, List.find?_cons]
    by_cases hx : x.1 = k
    · have hnot : List.find? (fun p => decide (p.1 = k)) xs = none := by
        rw [List.find?_eq_none]
        intro p hp hpk
        simp only [decide_eq_true_eq] at hpk
        exact hl.1 (by rw [hx, ← hpk]; exact List.mem_map_of_mem Prod.fst hp)
      subst hx
      simp [hnot, GoMap.get_set_self]
    · have hk : k ≠ x.1 := fun e => hx e.symm
      simp only [hx, decide_False, GoMap.get_set_other m x.2 hk]

/-- C10 (as amended): for every non-nil artifact store `S` and every non-nil output `O`,
the merge succeeds, and the store after it maps each key of `O` to the value `O` has for
it, maps every other key to what `S` had for it, and has every key that `S` had. -/
theorem persist_spec (S O : Artifacts) :
    ∃ S' : Artifacts, persist (some S) (some O) = some (some S')
      ∧ (∀ k v, O.get? k = some v → S'.get? k = some v)
      ∧ (∀ k, O.get? k = none → S'.get? k = S.get? k)
      ∧ (∀ k, k ∈ S.keys → k ∈ S'.keys) := by
  refine ⟨O.entries.foldl (fun (acc : Artifacts) (p : String × String) => acc.set p.1 p.2) S,
    assignAll_some O.entries S, ?_, ?_, ?_⟩
  · intro k v hv
    rw [get_foldl_set O.entries O.nodupKeys k S]
    unfold GoMap.get? at hv
    rw [hv]
    rfl
  · intro k hk
    rw [get_foldl_set O.entries O.nodupKeys k S]
    unfold GoMap.get? at hk
    rw [hk]
    rfl
  · intro k hk
    rw [GoMap.mem_keys_iff] at hk ⊢
    obtain ⟨v, hv⟩ := hk
    rw [get_foldl_set O.entries O.nodupKeys k S, hv]
    cases (O.entries.find? (fun p => p.1 = k)).map Prod.snd with
    | none => exact ⟨v, rfl⟩
    | some w => exact ⟨w, rfl⟩

/-- C10 (counterexample): when the shared store is the nil map (a caller passed `nil` as
`rootCtxArtifacts`) and the output has an entry, the assignment panics: there is no store
after the merge. -/
theorem persist_nil_store_panics :
    persist none (some ((GoMap.empty : Artifacts).set "audio" "a.mp3")) = none := by
  decide

/-! ## Task lists that `NewEngine` does not reject -/

theorem blockedInv_step (workers : Nat) (e0 : dagEngine) (S : List String)
    (hS : Blocked e0 S) (hfresh : ∀ d, e0.state.get? d ≠ some nodeState.success)
    (s : RunState) (log : List Event) (ev : Event) (s' : RunState)
    (hI : BlockedInv e0 S s log) (h : Step workers s ev s') :
    BlockedInv e0 S s' (ev :: log) := by
  have hqueued : ∀ id rest, s.main = MainPc.dispatching (id :: rest) →
      id ∉ S ∧ e0.state.get? id ≠ none :=
    fun id rest hm => hI.queued _ hm id (List.mem_cons_self _ _)
  have hset : ∀ d st, ev = Event.stateSet d st → d ∉ S ∧ e0.state.get? d ≠ none := by
    intro d st hev
    subst hev
    obtain ⟨pc, hg⟩ := h.stateSet_inv
    exact hI.started _ hg
  refine ⟨h.frame.1.trans hI.frame, ?_, ?_, ?_, ?_, ?_⟩
  · intro d hd
    rcases h.state_get d with hsame | ⟨st, hev, _⟩
    · rw [hsame]; exact hI.unknown d hd
    · exact absurd hd (hset d st hev).2
  · intro id hid
    rcases h.state_get id with hsame | ⟨st, hev, _⟩
    · rw [hsame]; exact hI.kept id hid
    · exact absurd hid (hset id st hev).1
  · intro l hl id hid
    rcases h.main_dispatching l hl with hm | ⟨id0, hm⟩ | ⟨_, hperm⟩
    · exact hI.queued l hm id hid
    · exact hI.queued _ hm id (List.mem_cons_of_mem _ hid)
    · have hready : id ∈ s.e.ready := hperm.subset hid
      rw [mem_ready_iff, hI.frame] at hready
      obtain ⟨hpend, hdeps⟩ := hready
      constructor
      · intro hin
        obtain ⟨d, hd, hd'⟩ := hS id hin
        have hsucc := hdeps d hd
        rcases hd' with hdS | hdnone
        · rw [hI.kept d hdS] at hsucc
          exact hfresh d hsucc
        · rw [hI.unknown d hdnone] at hsucc
          exact absurd hsucc (by simp)
      · intro hnone
        rw [hI.unknown id hnone] at hpend
        exact absurd hpend (by simp)
  · intro g hg
    rcases h.gs_mem g hg with ⟨g0, hg0, hfst⟩ | ⟨rest, hm⟩
    · rw [← hfst]; exact hI.started g0 hg0
    · exact hqueued _ rest hm
  · intro id hid hmem
    rcases List.mem_cons.1 hmem with hev | hold
    · subst hev
      obtain ⟨rest, hm⟩ := h.dispatched_inv
      exact (hqueued id rest hm).1 hid
    · exact hI.notDispatched id hid hold

theorem blockedInv_initial (e0 : dagEngine) (S : List String)
    (rootCtxArtifacts : Option Artifacts) :
    BlockedInv e0 S (initial e0 rootCtxArtifacts) [] := by
  refine ⟨rfl, fun _ h => h, fun _ _ => rfl, ?_, ?_, ?_⟩
  · intro l hl
    simp [initial] at hl
  · intro g hg
    simp [initial] at hg
  · intro id _ hmem
    simp at hmem

/-- C7 (as amended): `NewEngine` rejects no task list: every task of the list is
registered under its id in state `pending`, whatever the list, and for an id that occurs
several times the engine holds the last task.  In every execution of `Run` on that engine,
the ids of a blocked set (a dependency cycle, or an id with a dependency that no task has)
are never dispatched: they have no goroutine and keep the state `NewEngine` gave them. -/
theorem blocked_never_dispatched (tasks : List Task) (rootCtxArtifacts : Option Artifacts)
    (workers : Nat) (schedule : List Action) (s : RunState) (log : List Event)
    (hrun : (NewEngine tasks).Run rootCtxArtifacts workers schedule = some (s, log))
    (S : List String) (hS : Blocked (NewEngine tasks) S) :
    (∀ t ∈ tasks, (NewEngine tasks).state.get? t.ID = some nodeState.pending)
      ∧ (∀ pre t post, tasks = pre ++ t :: post → (∀ t' ∈ post, t'.ID ≠ t.ID) →
          (NewEngine tasks).nodes.get? t.ID = some t)
      ∧ ∀ id ∈ S, Event.dispatched id ∉ log ∧ (∀ g ∈ s.gs, g.1 ≠ id)
          ∧ s.e.state.get? id = (NewEngine tasks).state.get? id := by
  have hfresh : ∀ d, (NewEngine tasks).state.get? d ≠ some nodeState.success :=
    fun d hd => absurd (NewEngine_state_pending tasks d _ hd) (by decide)
  have hI : BlockedInv (NewEngine tasks) S s log :=
    runFrom_inv workers (BlockedInv (NewEngine tasks) S)
      (fun s log ev s' hP hs => blockedInv_step workers _ S hS hfresh s log ev s' hP hs)
      schedule _ [] s log (blockedInv_initial _ S rootCtxArtifacts) hrun
  refine ⟨fun t ht => NewEngine_listed tasks t ht, ?_, ?_⟩
  · intro pre t post htasks hpost
    rw [htasks]
    exact NewEngine_last pre post t hpost
  intro id hid
  refine ⟨hI.notDispatched id hid, ?_, hI.kept id hid⟩
  intro g hg hgid
  exact (hI.started g hg).1 (hgid ▸ hid)

theorem blocked_never_dispatched_witness :
    ∃ s log, (NewEngine [taskA, taskCycleB, taskCycleC]).Run none 2 soloSchedule = some (s, log)
      ∧ s.main = MainPc.returned none
      ∧ Blocked (NewEngine [taskA, taskCycleB, taskCycleC]) ["B", "C2"]
      ∧ ((∀ t ∈ [taskA, taskCycleB, taskCycleC],
            (NewEngine [taskA, taskCycleB, taskCycleC]).state.get? t.ID
              = some nodeState.pending)
          ∧ (∀ pre t post, [taskA, taskCycleB, taskCycleC] = pre ++ t :: post →
              (∀ t' ∈ post, t'.ID ≠ t.ID) →
              (NewEngine [taskA, taskCycleB, taskCycleC]).nodes.get? t.ID = some t)
          ∧ ∀ id ∈ ["B", "C2"], Event.dispatched id ∉ log ∧ (∀ g ∈ s.gs, g.1 ≠ id)
              ∧ s.e.state.get? id
                = (NewEngine [taskA, taskCycleB, taskCycleC]).state.get? id) :=
  ⟨_, _, rfl, by decide, by decide,
    blocked_never_dispatched [taskA, taskCycleB, taskCycleC] none 2 soloSchedule _ _ rfl ["B", "C2"]
      (by decide)⟩

/-- C7 (counterexample): `NewEngine` gives an engine for a list with the id `A` twice, and
`Run` on it dispatches `A`, executes it and returns `nil`; it also gives an engine for the
cycle `B`, `C2` and for `C` with its unknown dependency, with every task registered. -/
theorem newEngine_rejects_nothing :
    (∃ s log, (NewEngine [taskA, taskA]).Run none 1 soloSchedule = some (s, log)
      ∧ Event.retried "A" (RetryResult.succeeded none) ∈ log
      ∧ s.main = MainPc.returned none)
    ∧ (NewEngine [taskCycleB, taskCycleC]).state.keys = ["B", "C2"]
    ∧ (NewEngine [taskC]).state.keys = ["C"] :=
  ⟨⟨_, _, rfl, by decide, by decide⟩, by decide, by decide⟩

end Dag

namespace Scraper

/-! ## Rounding to `float64` -/

theorem roundHalfEven_eq (q : ℚ) (n : ℤ) (h1 : (n : ℚ) - 1 / 2 < q) (h2 : q < n + 1 / 2) :
    roundHalfEven q = n := by
  unfold roundHalfEven
  by_cases hq : (n : ℚ) ≤ q
  · have hf : ⌊q⌋ = n := by
      rw [Int.floor_eq_iff]
      exact ⟨hq, by linarith⟩
    rw [hf]
    have : q - (n : ℚ) < 1 / 2 := by linarith
    rw [if_pos this]
  · have hq' : q < n := lt_of_not_ge hq
    have hf : ⌊q⌋ = n - 1 := by
      rw [Int.floor_eq_iff]
      push_cast
      exact ⟨by linarith, by linarith⟩
    rw [hf]
    push_cast
    have h3 : ¬ q - ((n : ℚ) - 1) < 1 / 2 := by
      intro h; linarith
    have h4 : 1 / 2 < q - ((n : ℚ) - 1) := by linarith
    rw [if_neg h3, if_pos h4]
    ring

theorem unitInLastPlace_eq (x : ℚ) (k : ℤ) (hk : -1022 ≤ k) (hlo : (2 : ℚ) ^ k ≤ |x|)
    (hhi : |x| < (2 : ℚ) ^ (k + 1)) : unitInLastPlace x = 2 ^ (k - 52) := by
  have hpos : 0 < |x| := lt_of_lt_of_le (by positivity) hlo
  have hlog : Int.log 2 |x| = k := by
    apply le_antisymm
    · have := (Int.lt_zpow_iff_log_lt (by norm_num : 1 < 2) hpos).1
        (show |x| < ((2 : ℕ) : ℚ) ^ (k + 1) by exact_mod_cast hhi)
      omega
    · exact (Int.zpow_le_iff_le_log (by norm_num : 1 < 2) hpos).1
        (show ((2 : ℕ) : ℚ) ^ k ≤ |x| by exact_mod_cast hlo)
  unfold unitInLastPlace
  rw [hlog, max_eq_left hk]

/-- The rounding of a positive `x` of binary exponent `k` whose quotient by the spacing is
within a half of the integer `n`. -/
theorem roundFinite_eq_of_pos (x : ℚ) (k n : ℤ) (hk : -1022 ≤ k) (hlo : (2 : ℚ) ^ k ≤ x)
    (hhi : x < (2 : ℚ) ^ (k + 1))
    (h1 : (n : ℚ) - 1 / 2 < x / 2 ^ (k - 52)) (h2 : x / 2 ^ (k - 52) < n + 1 / 2) :
    roundFinite x = n * 2 ^ (k - 52) := by
  have hx : 0 < x := lt_of_lt_of_le (by positivity) hlo
  unfold roundFinite
  rw [if_neg (ne_of_gt hx),
    unitInLastPlace_eq x k hk (by rw [abs_of_pos hx]; exact hlo)
      (by rw [abs_of_pos hx]; exact hhi),
    roundHalfEven_eq _ n h1 h2]

theorem ofRat_of_round (x r : ℚ) (hr : roundFinite x = r) (h0 : 0 ≤ r)
    (hsmall : r < 2 ^ 1024) : Float64.ofRat x = Float64.finite r := by
  unfold Float64.ofRat
  rw [hr, abs_of_nonneg h0, if_neg (not_le.2 hsmall)]

theorem ofRat_zero : Float64.ofRat 0 = Float64.finite 0 :=
  ofRat_of_round 0 0 (by simp [roundFinite]) (by norm_num) (by norm_num)

theorem roundFinite_three : roundFinite 3 = 3 := by
  rw [roundFinite_eq_of_pos 3 1 (3 * 2 ^ 51) (by norm_num) (by norm_num) (by norm_num)
    (by norm_num) (by norm_num)]
  norm_num

theorem roundFinite_six : roundFinite 6 = 6 := by
  rw [roundFinite_eq_of_pos 6 2 (3 * 2 ^ 51) (by norm_num) (by norm_num) (by norm_num)
    (by norm_num) (by norm_num)]
  norm_num

theorem ofRat_two : Float64.ofRat 2 = Float64.finite 2 := by
  refine ofRat_of_round 2 2 ?_ (by norm_num) (by norm_num)
  rw [roundFinite_eq_of_pos 2 1 (2 ^ 52) (by norm_num) (by norm_num) (by norm_num)
    (by norm_num) (by norm_num)]
  norm_num

theorem ofRat_three : Float64.ofRat 3 = Float64.finite 3 :=
  ofRat_of_round 3 3 roundFinite_three (by norm_num) (by norm_num)

theorem ofRat_half : Float64.ofRat (1 / 2) = Float64.finite (1 / 2) := by
  refine ofRat_of_round (1 / 2) (1 / 2) ?_ (by norm_num) (by norm_num)
  rw [roundFinite_eq_of_pos (1 / 2) (-1) (2 ^ 52) (by norm_num) (by norm_num) (by norm_num)
    (by norm_num) (by norm_num)]
  norm_num

/-- The constant `0.60` as a `float64`. -/
theorem confidenceThreshold_eq :
    confidenceThreshold = Float64.finite (5404319552844595 / 9007199254740992) := by
  refine ofRat_of_round (60 / 100) _ ?_ (by norm_num) (by norm_num)
  rw [roundFinite_eq_of_pos (60 / 100) (-1) 5404319552844595 (by norm_num) (by norm_num)
    (by norm_num) (by norm_num) (by norm_num)]
  norm_num

/-- The constant `0.50` as a `float64`. -/
theorem percentageThreshold_eq :
    percentageLowConfidenceThresholdWithinSegment = Float64.finite (1 / 2) := by
  unfold percentageLowConfidenceThresholdWithinSegment
  rw [show ((50 : ℚ) / 100) = 1 / 2 by norm_num]
  exact ofRat_half

/-- The constant `2.0` as a `float64`. -/
theorem minSegmentDurationSeconds_eq : minSegmentDurationSeconds = Float64.finite 2 :=
  ofRat_two

theorem ofRat_nine_tenths :
    Float64.ofRat (9 / 10) = Float64.finite (8106479329266893 / 9007199254740992) := by
  refine ofRat_of_round (9 / 10) _ ?_ (by norm_num) (by norm_num)
  rw [roundFinite_eq_of_pos (9 / 10) (-1) 8106479329266893 (by norm_num) (by norm_num)
    (by norm_num) (by norm_num) (by norm_num)]
  norm_num

/-- A score equal to the constant is not below it. -/
theorem Float64.lt_irrefl (a : Float64) : a.lt a = false := by
  cases a <;> simp [Float64.lt]

/-! ## The counters of the word loop -/

theorem lowRunAtStart_le_longestLowRun (words : List TimeAlignedWord) :
    lowRunAtStart words ≤ longestLowRun words := by
  cases words with
  | nil => simp [lowRunAtStart, longestLowRun]
  | cons w ws => exact Nat.le_max_left _ _

/-- The loop over the words started from the counters `c`, with the check for the last
sequence, ends with this longest sequence. -/
theorem foldl_countWord_max (words : List TimeAlignedWord) :
    ∀ c : WordCounters,
      max (words.foldl countWord c).consecutiveLowConfidence
          (words.foldl countWord c).maxConsecutiveLowConfidence
        = max c.maxConsecutiveLowConfidence
            (max (c.consecutiveLowConfidence + lowRunAtStart words) (longestLowRun words)) := by
  induction words with
  | nil =>
    intro c
    simp only [List.foldl_nil, lowRunAtStart, longestLowRun]
    omega
  | cons w ws ih =>
    intro c
    rw [List.foldl_cons, ih]
    have hle := lowRunAtStart_le_longestLowRun ws
    by_cases hw : w.ConfidenceScore.lt confidenceThreshold = true
    · have hw' : w.ConfidenceScore.lt (Float64.ofRat (60 / 100)) = true := hw
      have e1 : countWord c w = { c with
          lowConfidenceCount := c.lowConfidenceCount + 1
          consecutiveLowConfidence := c.consecutiveLowConfidence + 1 } := by
        unfold countWord
        rw [if_pos hw]
      have e2 : lowRunAtStart (w :: ws) = lowRunAtStart ws + 1 := by
        simp only [lowRunAtStart]
        rw [if_pos hw']
      rw [e1]
      simp only [longestLowRun, e2]
      omega
    · have hw' : ¬ w.ConfidenceScore.lt (Float64.ofRat (60 / 100)) = true := hw
      have e1 : countWord c w = { c with
          maxConsecutiveLowConfidence :=
            if c.consecutiveLowConfidence > c.maxConsecutiveLowConfidence then
              c.consecutiveLowConfidence
            else c.maxConsecutiveLowConfidence
          consecutiveLowConfidence := 0 } := by
        unfold countWord
        rw [if_neg hw]
      have e2 : lowRunAtStart (w :: ws) = 0 := by
        simp only [lowRunAtStart]
        rw [if_neg hw']
      rw [e1]
      simp only [longestLowRun, e2]
      split <;> omega

/-- The longest sequence that the code computes is the longest run of the claim. -/
theorem countWords_max (words : List TimeAlignedWord) :
    (countWords words).maxConsecutiveLowConfidence = longestLowRun words := by
  have h := foldl_countWord_max words ⟨0, 0, 0⟩
  have hle := lowRunAtStart_le_longestLowRun words
  simp only [Nat.zero_add] at h
  unfold countWords
  generalize List.foldl countWord ⟨0, 0, 0⟩ words = c at h
  by_cases hc : c.consecutiveLowConfidence > c.maxConsecutiveLowConfidence
  · simp only [hc, if_true]
    omega
  · simp only [hc, if_false]
    omega

/-! ## The longest run of the claim, by runs of consecutive words -/

theorem take_lowRunAtStart (words : List TimeAlignedWord) :
    ∀ n, n ≤ lowRunAtStart words →
      (words.take n).length = n
        ∧ ∀ w ∈ words.take n, w.ConfidenceScore.lt (Float64.ofRat (60 / 100)) = true := by
  induction words with
  | nil =>
    intro n hn
    simp only [lowRunAtStart, Nat.le_zero] at hn
    subst hn
    simp
  | cons w ws ih =>
    intro n hn
    cases n with
    | zero => simp
    | succ m =>
      by_cases hw : w.ConfidenceScore.lt (Float64.ofRat (60 / 100)) = true
      · simp only [lowRunAtStart] at hn
        rw [if_pos hw] at hn
        obtain ⟨hlen, hall⟩ := ih m (by omega)
        refine ⟨by simp only [List.take_succ_cons, List.length_cons, hlen], ?_⟩
        intro x hx
        simp only [List.take_succ_cons, List.mem_cons] at hx
        rcases hx with hx | hx
        · rw [hx]; exact hw
        · exact hall x hx
      · simp only [lowRunAtStart] at hn
        rw [if_neg hw] at hn
        omega

theorem length_le_lowRunAtStart (run : List TimeAlignedWord) :
    ∀ words : List TimeAlignedWord, run <+: words →
      (∀ w ∈ run, w.ConfidenceScore.lt (Float64.ofRat (60 / 100)) = true) →
      run.length ≤ lowRunAtStart words := by
  induction run with
  | nil => intro words _ _; simp
  | cons r rs ih =>
    intro words hpre hall
    cases words with
    | nil => simp at hpre
    | cons w ws =>
      rw [List.cons_prefix_cons] at hpre
      obtain ⟨hrw, hrest⟩ := hpre
      subst hrw
      have hr : r.ConfidenceScore.lt (Float64.ofRat (60 / 100)) = true :=
        hall r (List.mem_cons_self _ _)
      have := ih ws hrest (fun x hx => hall x (List.mem_cons_of_mem _ hx))
      simp only [lowRunAtStart, List.length_cons]
      rw [if_pos hr]
      omega

/-- The number `longestLowRun words` is the greatest length of a run of consecutive words
of `words` that all have a confidence score below 0.60. -/
theorem le_longestLowRun_iff (words : List TimeAlignedWord) (n : Nat) :
    n ≤ longestLowRun words ↔
      ∃ run, run <:+: words ∧ run.length = n
        ∧ ∀ w ∈ run, w.ConfidenceScore.lt (Float64.ofRat (60 / 100)) = true := by
  induction words with
  | nil =>
    simp only [longestLowRun, Nat.le_zero, List.infix_nil]
    constructor
    · intro hn
      exact ⟨[], rfl, by simp [hn], by simp⟩
    · rintro ⟨run, hrun, hlen, _⟩
      rw [← hlen, hrun]
      rfl
  | cons w ws ih =>
    simp only [longestLowRun, le_max_iff]
    constructor
    · rintro (h | h)
      · obtain ⟨hlen, hall⟩ := take_lowRunAtStart (w :: ws) n h
        exact ⟨(w :: ws).take n, (List.take_prefix n _).isInfix, hlen, hall⟩
      · obtain ⟨run, hrun, hlen, hall⟩ := ih.1 h
        exact ⟨run, List.infix_cons hrun, hlen, hall⟩
    · rintro ⟨run, hrun, hlen, hall⟩
      rcases List.infix_cons_iff.1 hrun with hpre | hin
      · left
        rw [← hlen]
        exact length_le_lowRunAtStart run (w :: ws) hpre hall
      · right
        exact ih.2 ⟨run, hin, hlen, hall⟩

/-! ## The rule on consecutive words of low confidence -/

/-- What the code does: a segment with words that passes the checks of duration, of start
and end and of the share of low-confidence words is skipped for consecutive low confidence
exactly when its longest run of low-confidence words has `consecutiveLowConfidenceThreshold`
words or more. -/
theorem checkSegment_consecutive_iff (seg : TranscriptSegment)
    (hwords : seg.Words.length > 0)
    (hduration : (seg.End.sub seg.Start).lt minSegmentDurationSeconds = false)
    (htimes : (seg.End.le seg.Start || seg.Start.lt (Float64.ofRat 0)) = false)
    (hshare : percentageLowConfidenceThresholdWithinSegment.lt
        (percentageLowConfidence (countWords seg.Words).lowConfidenceCount
          seg.Words.length) = false) :
    (checkSegment seg = SegmentCheck.consecutiveLowConfidence
        ↔ consecutiveLowConfidenceThreshold ≤ longestLowRun seg.Words)
      ∧ (checkSegment seg = SegmentCheck.extract
        ↔ longestLowRun seg.Words < consecutiveLowConfidenceThreshold) := by
  unfold checkSegment
  rw [hduration, htimes, if_pos hwords, hshare, countWords_max]
  simp only [Bool.false_eq_true, if_false]
  by_cases h : longestLowRun seg.Words ≥ consecutiveLowConfidenceThreshold
  · rw [if_pos h]
    exact ⟨⟨fun _ => h, fun _ => rfl⟩,
      ⟨fun hc => absurd hc (by simp), fun hl => absurd h (Nat.not_le.2 hl)⟩⟩
  · rw [if_neg h]
    exact ⟨⟨fun hc => absurd hc (by simp), fun hl => absurd hl h⟩,
      ⟨fun _ => Nat.lt_of_not_ge h, fun _ => rfl⟩⟩

theorem lowWord_low : lowWord.ConfidenceScore.lt (Float64.ofRat (60 / 100)) = true := by
  have h := confidenceThreshold_eq
  unfold confidenceThreshold at h
  rw [h]
  simp only [lowWord, Float64.lt, decide_eq_true_eq]
  norm_num

theorem highWord_high : highWord.ConfidenceScore.lt (Float64.ofRat (60 / 100)) = false := by
  have h := confidenceThreshold_eq
  unfold confidenceThreshold at h
  rw [h]
  simp only [highWord, ofRat_nine_tenths, Float64.lt, decide_eq_false_iff_not]
  norm_num

theorem threeLowSegment_longestLowRun : longestLowRun threeLowSegment.Words = 3 := by
  simp [threeLowSegment, longestLowRun, lowRunAtStart, lowWord_low, highWord_high]

/-- C11 (defect of the code): the segment `threeLowSegment` has six words, lasts three
seconds, has valid times, half of its words are of low confidence (not more than the
share allowed), and its longest run of low-confidence words is exactly three words long,
not more than `consecutiveLowConfidenceThreshold`; `Segment` skips it for consecutive low
confidence all the same. -/
theorem three_low_words_skipped :
    threeLowSegment.Words.length = 6
      ∧ (threeLowSegment.End.sub threeLowSegment.Start).lt minSegmentDurationSeconds = false
      ∧ (threeLowSegment.End.le threeLowSegment.Start
          || threeLowSegment.Start.lt (Float64.ofRat 0)) = false
      ∧ percentageLowConfidenceThresholdWithinSegment.lt
          (percentageLowConfidence (countWords threeLowSegment.Words).lowConfidenceCount
            threeLowSegment.Words.length) = false
      ∧ longestLowRun threeLowSegment.Words = 3
      ∧ ¬ longestLowRun threeLowSegment.Words > consecutiveLowConfidenceThreshold
      ∧ checkSegment threeLowSegment = SegmentCheck.consecutiveLowConfidence := by
  have hlen : threeLowSegment.Words.length = 6 := rfl
  have hduration : (threeLowSegment.End.sub threeLowSegment.Start).lt
      minSegmentDurationSeconds = false := by
    rw [minSegmentDurationSeconds_eq]
    simp only [threeLowSegment, Float64.sub, sub_zero, ofRat_three, Float64.lt,
      decide_eq_false_iff_not]
    norm_num
  have htimes : (threeLowSegment.End.le threeLowSegment.Start
      || threeLowSegment.Start.lt (Float64.ofRat 0)) = false := by
    rw [ofRat_zero]
    simp only [threeLowSegment, Float64.le, Float64.lt, Bool.or_eq_false_iff,
      decide_eq_false_iff_not]
    norm_num
  have hcount : (countWords threeLowSegment.Words).lowConfidenceCount = 3 := by
    have hlow : lowWord.ConfidenceScore.lt confidenceThreshold = true := lowWord_low
    have hhigh : highWord.ConfidenceScore.lt confidenceThreshold = false := highWord_high
    simp [threeLowSegment, countWords, countWord, hlow, hhigh]
  have hshare : percentageLowConfidenceThresholdWithinSegment.lt
      (percentageLowConfidence (countWords threeLowSegment.Words).lowConfidenceCount
        threeLowSegment.Words.length) = false := by
    rw [hcount, hlen, percentageThreshold_eq]
    unfold percentageLowConfidence
    have h3 : roundFinite ((3 : ℕ) : ℚ) = 3 := by exact_mod_cast roundFinite_three
    have h6 : roundFinite ((6 : ℕ) : ℚ) = 6 := by exact_mod_cast roundFinite_six
    rw [h3, h6, show ((3 : ℚ) / 6) = 1 / 2 by norm_num, ofRat_half]
    simp [Float64.lt]
  have hrun := threeLowSegment_longestLowRun
  refine ⟨hlen, hduration, htimes, hshare, hrun, ?_, ?_⟩
  · rw [hrun]
    decide
  · exact (checkSegment_consecutive_iff threeLowSegment (by rw [hlen]; decide) hduration
      htimes hshare).1.2 (by rw [hrun]; decide)

/-! ## Rounding at the boundaries of the checks -/

/-- A score equal to the `float64` of `0.60` is not of low confidence. -/
theorem score_at_threshold_not_low :
    (Float64.ofRat (60 / 100)).lt confidenceThreshold = false :=
  Float64.lt_irrefl _

theorem ofRat_one_thousandth :
    Float64.ofRat (1 / 1000)
      = Float64.finite (1152921504606847 / 1152921504606846976) := by
  refine ofRat_of_round (1 / 1000) _ ?_ (by norm_num) (by norm_num)
  rw [roundFinite_eq_of_pos (1 / 1000) (-10) 4611686018427388 (by norm_num) (by norm_num)
    (by norm_num) (by norm_num) (by norm_num)]
  norm_num

theorem ofRat_two_and_one_thousandth :
    Float64.ofRat (2001 / 1000)
      = Float64.finite (4505851427184181 / 2251799813685248) := by
  refine ofRat_of_round (2001 / 1000) _ ?_ (by norm_num) (by norm_num)
  rw [roundFinite_eq_of_pos (2001 / 1000) 1 4505851427184181 (by norm_num) (by norm_num)
    (by norm_num) (by norm_num) (by norm_num)]
  norm_num


theorem roundFinite_difference :
    roundFinite (4505851427184181 / 2251799813685248
      - 1152921504606847 / 1152921504606846976) = 2 := by
  rw [roundFinite_eq_of_pos
    (4505851427184181 / 2251799813685248 - 1152921504606847 / 1152921504606846976)
    0 9007199254740992 (by norm_num) (by norm_num) (by norm_num) (by norm_num) (by norm_num)]
  norm_num

theorem ofRat_difference :
    Float64.ofRat (4505851427184181 / 2251799813685248
      - 1152921504606847 / 1152921504606846976) = Float64.finite 2 :=
  ofRat_of_round
    (4505851427184181 / 2251799813685248 - 1152921504606847 / 1152921504606846976) 2
    roundFinite_difference (by norm_num) (by norm_num)

theorem roundedDuration_sub :
    roundedDurationSegment.End.sub roundedDurationSegment.Start = Float64.finite 2 := by
  have hs : roundedDurationSegment.Start
      = Float64.finite (1152921504606847 / 1152921504606846976) := ofRat_one_thousandth
  have he : roundedDurationSegment.End
      = Float64.finite (4505851427184181 / 2251799813685248) := ofRat_two_and_one_thousandth
  rw [hs, he]
  exact ofRat_difference

/-- The duration of `roundedDurationSegment` is rounded to 2, so the segment is not too
short, although the real difference of its end and start is below 2. -/
theorem roundedDurationSegment_extract :
    roundedDurationSegment.End.sub roundedDurationSegment.Start = Float64.finite 2
      ∧ (4505851427184181 / 2251799813685248 - 1152921504606847 / 1152921504606846976 : ℚ) < 2
      ∧ checkSegment roundedDurationSegment = SegmentCheck.extract := by
  have hs : roundedDurationSegment.Start
      = Float64.finite (1152921504606847 / 1152921504606846976) := ofRat_one_thousandth
  have he : roundedDurationSegment.End
      = Float64.finite (4505851427184181 / 2251799813685248) := ofRat_two_and_one_thousandth
  have hwords : roundedDurationSegment.Words = [] := rfl
  have h1 : (Float64.finite 2).lt (Float64.finite 2) = false := by
    simp only [Float64.lt, decide_eq_false_iff_not]
    norm_num
  have h2 : (Float64.finite (4505851427184181 / 2251799813685248)).le
      (Float64.finite (1152921504606847 / 1152921504606846976)) = false := by
    simp only [Float64.le, decide_eq_false_iff_not]
    norm_num
  have h3 : (Float64.finite (1152921504606847 / 1152921504606846976)).lt
      (Float64.finite 0) = false := by
    simp only [Float64.lt, decide_eq_false_iff_not]
    norm_num
  refine ⟨roundedDuration_sub, by norm_num, ?_⟩
  unfold checkSegment
  rw [roundedDuration_sub, minSegmentDurationSeconds_eq, ofRat_zero, hs, he, h1, h2, h3,
    hwords]
  rfl

end Scraper
